import Mathlib

/-!
Verification of the conflict-marker scanner in src/conflict.rs (jj-lsp).

The scanner walks a document line by line, classifies lines with five
anchored regexes, and assembles Conflict records with LSP positions.
We embed the program shallowly: the document is the sequence of lines
produced by the Rust lines() iterator, the Analyzer state is a Cursor
record, and each Rust method becomes a Lean function on cursors.  The
two unbounded driver loops (the block-dispatch loop of parse_diff_marker
and the top-level scan loop of find_conflicts) are defined with an
explicit fuel argument so that every definition is structural and
computable; theorems proved below show the fuel bound is never reached,
giving the fuel-free unfolding equations that match the Rust loops.
-/

namespace JJLsp

/-- Modelled from the spec: crate::utils::get_utf16_len is not part of
src/; the spec describes it as the number of UTF-16 code units needed
for the line, where codepoints outside the Basic Multilingual Plane
count as 2 units and all others count as 1. -/
def utf16LenList : List Char → Nat
  | [] => 0
  | c :: cs => (if c.toNat < 65536 then 1 else 2) + utf16LenList cs

/-- Modelled from the spec: UTF-16 code-unit length of a line. -/
def get_utf16_len (s : String) : Nat :=
  utf16LenList s.toList

/-- lsp_types Position: zero-based line, character in UTF-16 units. -/
structure Position where
  line : Nat
  character : Nat
deriving DecidableEq

/-- lsp_types Range: start and end positions. -/
structure Range where
  start : Position
  «end» : Position
deriving DecidableEq

/-- crate::types::ChangeBlock. -/
structure ChangeBlock where
  title_range : Range
  content : String
deriving DecidableEq

/-- crate::types::Conflict. -/
structure Conflict where
  range : Range
  title_range : Range
  blocks : List ChangeBlock
deriving DecidableEq

/-- Length of the maximal run of the character ch at the head of a line,
used to interpret the greedy leading repetitions of the five regexes. -/
def countLeading (ch : Char) : List Char → Nat
  | [] => 0
  | c :: cs => if c = ch then countLeading ch cs + 1 else 0

/-- Consume an exact literal from the head of the character list. -/
def dropLit : List Char → List Char → Option (List Char)
  | [], l => some l
  | _ :: _, [] => none
  | c :: cs, x :: xs => if x = c then dropLit cs xs else none

/-- Consume a maximal run of decimal digits. -/
def dropDigitsRest : List Char → List Char
  | [] => []
  | c :: cs => if c.isDigit then dropDigitsRest cs else c :: cs

/-- Consume one or more decimal digits (the regex class matched by a
digit escape, restricted to the ASCII digits exercised by the inputs
considered here). -/
def dropDigits1 : List Char → Option (List Char)
  | [] => none
  | c :: cs => if c.isDigit then some (dropDigitsRest cs) else none

/-- Characters of the Unicode White_Space class, as matched by the
whitespace escape of the continuation regex. -/
def isRegexSpace (c : Char) : Bool :=
  (9 ≤ c.toNat && c.toNat ≤ 13) || c.toNat = 32 || c.toNat = 133 ||
    c.toNat = 160 || c.toNat = 5760 ||
    (8192 ≤ c.toNat && c.toNat ≤ 8202) || c.toNat = 8232 ||
    c.toNat = 8233 || c.toNat = 8239 || c.toNat = 8287 || c.toNat = 12288

/-- Tail of the conflict-start regex after the leading run: a space,
C or c, the letters onflict, a space, digits, the word of, digits,
then end of line. -/
def conflictStartTail (l : List Char) : Bool :=
  match l with
  | ' ' :: c :: rest =>
    (c = 'C' || c = 'c') &&
      (match dropLit "onflict ".toList rest with
       | none => false
       | some r1 =>
         match dropDigits1 r1 with
         | none => false
         | some r2 =>
           match dropLit " of ".toList r2 with
           | none => false
           | some r3 =>
             match dropDigits1 r3 with
             | none => false
             | some r4 => r4.isEmpty)
  | _ => false

/-- is_match of DIFF_CONFLICT_START_REGEX, the anchored pattern of
seven or more repeated less-than signs, a space, Conflict or conflict,
a space, digits, the word of, digits, end of line. -/
def DIFF_CONFLICT_START_REGEX (s : String) : Bool :=
  decide (7 ≤ countLeading '<' s.toList) &&
    conflictStartTail (s.toList.drop (countLeading '<' s.toList))

/-- Tail of the conflict-end regex after the leading run: like the
start tail but with the word ends before the end of line. -/
def conflictEndTail (l : List Char) : Bool :=
  match l with
  | ' ' :: c :: rest =>
    (c = 'C' || c = 'c') &&
      (match dropLit "onflict ".toList rest with
       | none => false
       | some r1 =>
         match dropDigits1 r1 with
         | none => false
         | some r2 =>
           match dropLit " of ".toList r2 with
           | none => false
           | some r3 =>
             match dropDigits1 r3 with
             | none => false
             | some r4 =>
               match dropLit " ends".toList r4 with
               | none => false
               | some r5 => r5.isEmpty)
  | _ => false

/-- is_match of DIFF_CONFLICT_END_REGEX. -/
def DIFF_CONFLICT_END_REGEX (s : String) : Bool :=
  decide (7 ≤ countLeading '>' s.toList) &&
    conflictEndTail (s.toList.drop (countLeading '>' s.toList))

/-- After the leading run a header regex requires a space and then one
or more characters other than a line feed up to the end of the line. -/
def headerTail (l : List Char) : Bool :=
  match l with
  | ' ' :: rest => !rest.isEmpty && rest.all (fun c => c ≠ '\n')
  | _ => false

/-- is_match of DIFF_CHANGE_HEADER_REGEX: seven or more percent signs,
a space, then at least one character. -/
def DIFF_CHANGE_HEADER_REGEX (s : String) : Bool :=
  decide (7 ≤ countLeading '%' s.toList) &&
    headerTail (s.toList.drop (countLeading '%' s.toList))

/-- is_match of DIFF_CONTENTS_HEADER_REGEX: seven or more plus signs,
a space, then at least one character. -/
def DIFF_CONTENTS_HEADER_REGEX (s : String) : Bool :=
  decide (7 ≤ countLeading '+' s.toList) &&
    headerTail (s.toList.drop (countLeading '+' s.toList))

/-- is_match of DIFF_CONTINUATION_REGEX: seven or more backslashes
followed by one whitespace character; the pattern is unanchored on the
right so the rest of the line is unconstrained. -/
def DIFF_CONTINUATION_REGEX (s : String) : Bool :=
  decide (7 ≤ countLeading '\\' s.toList) &&
    (match s.toList.drop (countLeading '\\' s.toList) with
     | c :: _ => isRegexSpace c
     | [] => false)

/-- is_known_pattern from src/conflict.rs lines 164 to 169. -/
def is_known_pattern (content : String) : Bool :=
  DIFF_CHANGE_HEADER_REGEX content || DIFF_CONTENTS_HEADER_REGEX content ||
    DIFF_CONFLICT_END_REGEX content || DIFF_CONTINUATION_REGEX content

/-- The mutable scanning state of the Analyzer: the not-yet-consumed
suffix of the line iterator, the current line, and the current line
number. -/
structure Cursor where
  rest : List String
  cur_line : Option String
  cur_line_number : Nat
deriving DecidableEq

/-- Analyzer::next: bump the line number when a current line exists,
then pull the next line from the iterator, returning it and the new
state. -/
def next (c : Cursor) : Option String × Cursor :=
  let n := if c.cur_line.isSome then c.cur_line_number + 1 else c.cur_line_number
  match c.rest with
  | [] => (none, ⟨[], none, n⟩)
  | l :: ls => (some l, ⟨ls, some l, n⟩)

/-- Analyzer::get_range_of_current_line: the full single-line range of
the current line, or none when the input is exhausted. -/
def get_range_of_current_line (c : Cursor) : Option Range :=
  match c.cur_line with
  | none => none
  | some l => some ⟨⟨c.cur_line_number, 0⟩, ⟨c.cur_line_number, get_utf16_len l⟩⟩

/-- Loop body of Analyzer::skip_continuation_lines, with the current
line and the iterator state split out so the recursion is structural
on the remaining lines. -/
def skip_go (line : String) (rest : List String) (n : Nat) : Cursor :=
  if DIFF_CONTINUATION_REGEX line then
    match rest with
    | [] => ⟨[], none, n + 1⟩
    | l :: ls => skip_go l ls (n + 1)
  else ⟨rest, some line, n⟩

/-- Analyzer::skip_continuation_lines: advance past the maximal run of
continuation lines starting at the current line. -/
def skip_continuation_lines (c : Cursor) : Cursor :=
  match c.cur_line with
  | none => c
  | some l => skip_go l c.rest c.cur_line_number

/-- One iteration of the content accumulation of parse_change_block: a
line starting with a minus sign is dropped, otherwise a newline
separator is appended when content is nonempty, then the line itself,
stripped of one leading plus sign when present. -/
def step_change (content line : String) : String :=
  if line.toList.head? = some '-' then content
  else
    let content := if content = "" then content else content ++ "\n"
    if line.toList.head? = some '+' then content ++ String.mk line.toList.tail
    else content ++ line

/-- Content loop of parse_change_block: accumulate until the current
line matches a known pattern, failing if the input ends first.  The
current line is always the some value of the cursor field cur_line, so
the recursion is structural on the iterator suffix. -/
def change_loop (content line : String) (rest : List String) (n : Nat) :
    Option String × Cursor :=
  if is_known_pattern line then (some content, ⟨rest, some line, n⟩)
  else
    match rest with
    | [] => (none, ⟨[], none, n + 1⟩)
    | l :: ls => change_loop (step_change content line) l ls (n + 1)

/-- Analyzer::parse_change_block, src/conflict.rs lines 82 to 113.  On
failure the advanced cursor is returned together with none, matching
the mutation of self before the early return in Rust. -/
def parse_change_block (c : Cursor) : Option ChangeBlock × Cursor :=
  match get_range_of_current_line c with
  | none => (none, c)
  | some title_range =>
    let c1 := (next c).2
    let c2 := skip_continuation_lines c1
    match c2.cur_line with
    | none => (none, c2)
    | some line =>
      match change_loop "" line c2.rest c2.cur_line_number with
      | (none, c3) => (none, c3)
      | (some content, c3) => (some ⟨title_range, content⟩, c3)

/-- One iteration of the content accumulation of parse_contents_block:
every line is appended verbatim, preceded by a newline separator when
content is nonempty. -/
def step_contents (content line : String) : String :=
  if content = "" then line else content ++ "\n" ++ line

/-- Content loop of parse_contents_block. -/
def contents_loop (content line : String) (rest : List String) (n : Nat) :
    Option String × Cursor :=
  if is_known_pattern line then (some content, ⟨rest, some line, n⟩)
  else
    match rest with
    | [] => (none, ⟨[], none, n + 1⟩)
    | l :: ls => contents_loop (step_contents content line) l ls (n + 1)

/-- Analyzer::parse_contents_block, src/conflict.rs lines 115 to 135.
Unlike parse_change_block, the advance past the header line itself
uses the question-mark operator. -/
def parse_contents_block (c : Cursor) : Option ChangeBlock × Cursor :=
  match get_range_of_current_line c with
  | none => (none, c)
  | some title_range =>
    match next c with
    | (none, c1) => (none, c1)
    | (some _, c1) =>
      let c2 := skip_continuation_lines c1
      match c2.cur_line with
      | none => (none, c2)
      | some line =>
        match contents_loop "" line c2.rest c2.cur_line_number with
        | (none, c3) => (none, c3)
        | (some content, c3) => (some ⟨title_range, content⟩, c3)

/-- Termination measure for the two driver loops: every call to next
strictly decreases it while a current line exists or lines remain. -/
def cursorMeasure (c : Cursor) : Nat :=
  2 * c.rest.length + (if c.cur_line.isSome then 1 else 0)

/-- Block-dispatch loop of parse_diff_marker, with fuel.  The theorem
parse_blocks_loop_eq below shows the fuel is never exhausted, so the
zero case is unreachable from parse_blocks_loop. -/
def parse_blocks_go : Nat → List ChangeBlock → Cursor →
    Option (List ChangeBlock) × Cursor
  | 0, blocks, c => (some blocks, c)
  | fuel + 1, blocks, c =>
    match c.cur_line with
    | none => (some blocks, c)
    | some cur_line =>
      if DIFF_CHANGE_HEADER_REGEX cur_line then
        match parse_change_block c with
        | (some block, c1) => parse_blocks_go fuel (blocks ++ [block]) c1
        | (none, c1) => (none, c1)
      else if DIFF_CONTENTS_HEADER_REGEX cur_line then
        match parse_contents_block c with
        | (some block, c1) => parse_blocks_go fuel (blocks ++ [block]) c1
        | (none, c1) => (none, c1)
      else (some blocks, c)

/-- The while-let loop over self.cur_line inside parse_diff_marker. -/
def parse_blocks_loop (blocks : List ChangeBlock) (c : Cursor) :
    Option (List ChangeBlock) × Cursor :=
  parse_blocks_go (cursorMeasure c + 1) blocks c

/-- Analyzer::parse_diff_marker, src/conflict.rs lines 47 to 80.  The
Rust method unwraps get_range_of_current_line; the none branch below
is unreachable because the only caller has just matched the current
line against the conflict-start regex.  The produced conflict, if any,
is returned instead of being pushed onto a field. -/
def parse_diff_marker (c : Cursor) : Option Conflict × Cursor :=
  match get_range_of_current_line c with
  | none => (none, c)
  | some title_range =>
    let c1 := (next c).2
    match parse_blocks_loop [] c1 with
    | (none, c2) => (none, c2)
    | (some blocks, c2) =>
      match c2.cur_line with
      | none => (none, c2)
      | some cur_line =>
        let end_position : Position := ⟨c2.cur_line_number, get_utf16_len cur_line⟩
        (some ⟨⟨title_range.start, end_position⟩, title_range, blocks⟩, c2)

/-- Top-level scan loop of Analyzer::find_conflicts, with fuel.  The
theorem find_conflicts_loop_eq below shows the fuel is never exhausted
when the loop is entered through find_conflicts_loop. -/
def find_conflicts_go : Nat → List Conflict → Cursor → List Conflict
  | 0, conflicts, _ => conflicts
  | fuel + 1, conflicts, c =>
    match next c with
    | (none, _) => conflicts
    | (some line, c1) =>
      if DIFF_CONFLICT_START_REGEX line then
        match parse_diff_marker c1 with
        | (some conf, c2) => find_conflicts_go fuel (conflicts ++ [conf]) c2
        | (none, c2) => find_conflicts_go fuel conflicts c2
      else find_conflicts_go fuel conflicts c1

/-- The while-let loop of Analyzer::find_conflicts. -/
def find_conflicts_loop (conflicts : List Conflict) (c : Cursor) : List Conflict :=
  find_conflicts_go (cursorMeasure c + 1) conflicts c

/-- Analyzer::new followed by Analyzer::find_conflicts: the input is
the sequence of lines yielded by the Rust lines() iterator over the
document text. -/
def find_conflicts (lines : List String) : List Conflict :=
  find_conflicts_loop [] ⟨lines, none, 0⟩

/-! Helper definitions used to state and prove the claims.  They
describe cursor states, well-formed marker structure and expected
outputs; none of them is part of the program itself. -/

/-- A cursor positioned at the first line of ls, the remaining
document, with that line as current line. -/
def cursorAt : List String → Nat → Cursor
  | [], n => ⟨[], none, n⟩
  | l :: ls, n => ⟨ls, some l, n⟩

/-- The single-line range produced by get_range_of_current_line for
line number n holding text l. -/
def rangeOfLine (n : Nat) (l : String) : Range :=
  ⟨⟨n, 0⟩, ⟨n, get_utf16_len l⟩⟩

/-- The per-line survival rule of the change-block claim: a line
starting with a minus sign contributes nothing, a line starting with a
plus sign contributes its suffix, any other line contributes itself. -/
def changeKeep (line : String) : Option String :=
  if line.toList.head? = some '-' then none
  else if line.toList.head? = some '+' then some (String.mk line.toList.tail)
  else some line

/-- The join described by the spec: lines joined by a single newline
character, with no leading or trailing newline added. -/
def joinNL : List String → String
  | [] => ""
  | [l] => l
  | l :: ls => l ++ "\n" ++ joinNL ls

/-- Description of one block of a well-formed conflict: its header
line, the continuation lines following the header, and the content
lines, none of which matches a known pattern. -/
structure Chunk where
  hdr : String
  conts : List String
  mids : List String

/-- The source lines of a chunk. -/
def Chunk.lines (ch : Chunk) : List String :=
  ch.hdr :: (ch.conts ++ ch.mids)

/-- Well-formedness of a chunk: the header matches one of the two block
header regexes, the continuation lines match the continuation regex,
and no content line matches a known pattern. -/
def Chunk.Wf (ch : Chunk) : Prop :=
  (DIFF_CHANGE_HEADER_REGEX ch.hdr = true ∨ DIFF_CONTENTS_HEADER_REGEX ch.hdr = true) ∧
    (∀ l ∈ ch.conts, DIFF_CONTINUATION_REGEX l = true) ∧
    (∀ l ∈ ch.mids, is_known_pattern l = false)

/-- The ChangeBlock record a chunk parses to when its header sits on
line n. -/
def Chunk.block (ch : Chunk) (n : Nat) : ChangeBlock :=
  ⟨rangeOfLine n ch.hdr,
   if DIFF_CHANGE_HEADER_REGEX ch.hdr then ch.mids.foldl step_change ""
   else ch.mids.foldl step_contents ""⟩

/-- The source lines of a list of chunks. -/
def chunksLines : List Chunk → List String
  | [] => []
  | ch :: rest => ch.lines ++ chunksLines rest

/-- The blocks a list of chunks parses to, with the first header on
line n. -/
def chunksBlocks : List Chunk → Nat → List ChangeBlock
  | [], _ => []
  | ch :: rest, n => ch.block n :: chunksBlocks rest (n + ch.lines.length)

/-- Description of one well-formed, fully closed conflict: a start
marker line, a list of chunks, and an end marker line. -/
structure Cflt where
  startL : String
  chunks : List Chunk
  endL : String

/-- The source lines of a conflict description. -/
def Cflt.lines (cf : Cflt) : List String :=
  cf.startL :: (chunksLines cf.chunks ++ [cf.endL])

/-- Well-formedness of a conflict description. -/
def Cflt.Wf (cf : Cflt) : Prop :=
  DIFF_CONFLICT_START_REGEX cf.startL = true ∧
    (∀ ch ∈ cf.chunks, ch.Wf) ∧
    DIFF_CONFLICT_END_REGEX cf.endL = true

/-- The Conflict record a well-formed conflict description parses to
when its start marker sits on line n. -/
def Cflt.record (cf : Cflt) (n : Nat) : Conflict :=
  ⟨⟨⟨n, 0⟩, ⟨n + 1 + (chunksLines cf.chunks).length, get_utf16_len cf.endL⟩⟩,
   rangeOfLine n cf.startL,
   chunksBlocks cf.chunks (n + 1)⟩

/-- A document segment: either a single filler line or a well-formed
conflict. -/
abbrev Seg := String ⊕ Cflt

/-- The source lines of a list of segments. -/
def segLines : List Seg → List String
  | [] => []
  | Sum.inl l :: rest => l :: segLines rest
  | Sum.inr cf :: rest => cf.lines ++ segLines rest

/-- Well-formedness of a segment list: filler lines do not match the
conflict-start regex and conflicts are well formed. -/
def SegsWf (segs : List Seg) : Prop :=
  ∀ s ∈ segs, match s with
    | Sum.inl l => DIFF_CONFLICT_START_REGEX l = false
    | Sum.inr cf => cf.Wf

/-- The Conflict records a segment list scans to, with its first line
at line number n. -/
def segsConflicts : List Seg → Nat → List Conflict
  | [], _ => []
  | Sum.inl _ :: rest, n => segsConflicts rest (n + 1)
  | Sum.inr cf :: rest, n => cf.record n :: segsConflicts rest (n + cf.lines.length)

/-- The number of conflicts in a segment list. -/
def segsCount : List Seg → Nat
  | [] => 0
  | Sum.inl _ :: rest => segsCount rest
  | Sum.inr _ :: rest => segsCount rest + 1

/-- A line matching none of the five marker classifiers. -/
def noMarker (l : String) : Prop :=
  DIFF_CONFLICT_START_REGEX l = false ∧ is_known_pattern l = false

/-- The property claimed of every produced title range: a single-line
range from column 0 to the UTF-16 code-unit length of the document
line it designates. -/
def GoodTitleRange (doc : List String) (r : Range) : Prop :=
  r.start.line = r.«end».line ∧ r.start.character = 0 ∧
    ∃ l, doc[r.start.line]? = some l ∧ r.«end».character = get_utf16_len l

/-- Cursor validity with respect to the scanned document: the current
line is the line at the current line number and the iterator holds
exactly the following lines; before the first call to next the state
is the initial one, and after exhaustion the iterator is empty. -/
def Inv (doc : List String) (c : Cursor) : Prop :=
  match c.cur_line with
  | some l => doc[c.cur_line_number]? = some l ∧ c.rest = doc.drop (c.cur_line_number + 1)
  | none => (c.rest = doc ∧ c.cur_line_number = 0) ∨ c.rest = []

/-! Basic lemmas about strings and cursors. -/

theorem string_eq_empty_iff (s : String) : s = "" ↔ s.data = [] := by
  constructor
  · intro h; subst h; rfl
  · intro h; cases s; simp_all

theorem string_append_ne_empty_left (a b : String) (h : a ≠ "") : a ++ b ≠ "" := by
  intro hc
  apply h
  rw [string_eq_empty_iff] at hc ⊢
  rw [String.data_append] at hc
  exact (List.append_eq_nil.mp hc).1

theorem next_cursorAt_cons (l : String) (ls : List String) (n : Nat) :
    next (cursorAt (l :: ls) n) = (ls.head?, cursorAt ls (n + 1)) := by
  cases ls <;> simp [next, cursorAt]

theorem next_cursorAt_nil (n : Nat) :
    next (cursorAt [] n) = (none, cursorAt [] n) := by
  simp [next, cursorAt]

theorem cursorAt_nil (n : Nat) : cursorAt [] n = ⟨[], none, n⟩ := rfl

theorem cursorAt_cons (l : String) (ls : List String) (n : Nat) :
    cursorAt (l :: ls) n = ⟨ls, some l, n⟩ := rfl

/-! Measure lemmas justifying that the fueled loops never run out of
fuel: every loop iteration strictly decreases cursorMeasure. -/

theorem mu_next_le (c : Cursor) : cursorMeasure (next c).2 ≤ cursorMeasure c := by
  rcases c with ⟨rest, cl, n⟩
  cases rest <;> cases cl <;> simp [next, cursorMeasure] <;> omega

theorem mu_next_lt_of_isSome (c : Cursor) (h : c.cur_line.isSome) :
    cursorMeasure (next c).2 < cursorMeasure c := by
  rcases c with ⟨rest, cl, n⟩
  cases cl
  · simp at h
  · cases rest <;> simp [next, cursorMeasure] <;> omega

theorem mu_next_lt_of_fst_some (c : Cursor) (l : String) (h : (next c).1 = some l) :
    cursorMeasure (next c).2 < cursorMeasure c := by
  rcases c with ⟨rest, cl, n⟩
  cases rest
  · simp [next] at h
  · cases cl <;> simp [next, cursorMeasure] <;> omega

theorem mu_skip_go_le (rest : List String) : ∀ (line : String) (n : Nat),
    cursorMeasure (skip_go line rest n) ≤ 2 * rest.length + 1 := by
  induction rest with
  | nil =>
    intro line n
    by_cases h : DIFF_CONTINUATION_REGEX line <;> simp [skip_go, h, cursorMeasure]
  | cons l ls ih =>
    intro line n
    by_cases h : DIFF_CONTINUATION_REGEX line
    · simp only [skip_go, h, if_pos]
      calc cursorMeasure (skip_go l ls (n + 1)) ≤ 2 * ls.length + 1 := ih l (n + 1)
        _ ≤ 2 * (l :: ls).length + 1 := by simp
    · simp [skip_go, h, cursorMeasure]

theorem mu_skip_le (c : Cursor) :
    cursorMeasure (skip_continuation_lines c) ≤ cursorMeasure c := by
  rcases c with ⟨rest, cl, n⟩
  cases cl
  · simp [skip_continuation_lines]
  · simpa [skip_continuation_lines, cursorMeasure] using mu_skip_go_le rest _ n

theorem mu_change_loop_le (rest : List String) : ∀ (content line : String) (n : Nat),
    cursorMeasure (change_loop content line rest n).2 ≤ 2 * rest.length + 1 := by
  induction rest with
  | nil =>
    intro content line n
    by_cases h : is_known_pattern line <;> simp [change_loop, h, cursorMeasure]
  | cons l ls ih =>
    intro content line n
    by_cases h : is_known_pattern line
    · simp [change_loop, h, cursorMeasure]
    · simp only [change_loop, h, Bool.false_eq_true, if_neg, not_false_iff]
      calc cursorMeasure (change_loop (step_change content line) l ls (n + 1)).2
          ≤ 2 * ls.length + 1 := ih _ l (n + 1)
        _ ≤ 2 * (l :: ls).length + 1 := by simp

theorem mu_contents_loop_le (rest : List String) : ∀ (content line : String) (n : Nat),
    cursorMeasure (contents_loop content line rest n).2 ≤ 2 * rest.length + 1 := by
  induction rest with
  | nil =>
    intro content line n
    by_cases h : is_known_pattern line <;> simp [contents_loop, h, cursorMeasure]
  | cons l ls ih =>
    intro content line n
    by_cases h : is_known_pattern line
    · simp [contents_loop, h, cursorMeasure]
    · simp only [contents_loop, h, Bool.false_eq_true, if_neg, not_false_iff]
      calc cursorMeasure (contents_loop (step_contents content line) l ls (n + 1)).2
          ≤ 2 * ls.length + 1 := ih _ l (n + 1)
        _ ≤ 2 * (l :: ls).length + 1 := by simp

theorem mu_parse_change_block_lt (c : Cursor) (l : String) (h : c.cur_line = some l) :
    cursorMeasure (parse_change_block c).2 < cursorMeasure c := by
  rcases c with ⟨rest, cl, n⟩
  cases cl with
  | none => simp at h
  | some l0 =>
    have hlt : cursorMeasure (next (⟨rest, some l0, n⟩ : Cursor)).2 <
        cursorMeasure (⟨rest, some l0, n⟩ : Cursor) :=
      mu_next_lt_of_isSome _ (by simp)
    have hskip : cursorMeasure (skip_continuation_lines (next (⟨rest, some l0, n⟩ : Cursor)).2) ≤
        cursorMeasure (next (⟨rest, some l0, n⟩ : Cursor)).2 := mu_skip_le _
    simp only [parse_change_block, get_range_of_current_line]
    set c2 := skip_continuation_lines (next (⟨rest, some l0, n⟩ : Cursor)).2 with hc2
    rcases hcl2 : c2.cur_line with _ | line
    · simp only [hcl2]
      omega
    · simp only [hcl2]
      have hloop : cursorMeasure (change_loop "" line c2.rest c2.cur_line_number).2 ≤
          2 * c2.rest.length + 1 := mu_change_loop_le _ _ _ _
      have hmu2 : cursorMeasure c2 = 2 * c2.rest.length + 1 := by
        simp [cursorMeasure, hcl2]
      rcases hres : change_loop "" line c2.rest c2.cur_line_number with ⟨ores, c3⟩
      cases ores <;> simp only [] <;>
        (first
          | (have : cursorMeasure c3 ≤ 2 * c2.rest.length + 1 := by
               simpa [hres] using hloop
             omega))

theorem mu_parse_contents_block_lt (c : Cursor) (l : String) (h : c.cur_line = some l) :
    cursorMeasure (parse_contents_block c).2 < cursorMeasure c := by
  rcases c with ⟨rest, cl, n⟩
  cases cl with
  | none => simp at h
  | some l0 =>
    have hlt : cursorMeasure (next (⟨rest, some l0, n⟩ : Cursor)).2 <
        cursorMeasure (⟨rest, some l0, n⟩ : Cursor) :=
      mu_next_lt_of_isSome _ (by simp)
    simp only [parse_contents_block, get_range_of_current_line]
    rcases hnx : next (⟨rest, some l0, n⟩ : Cursor) with ⟨onx, c1⟩
    have hc1 : cursorMeasure c1 < cursorMeasure (⟨rest, some l0, n⟩ : Cursor) := by
      simpa [hnx] using hlt
    cases onx with
    | none => simpa using hc1
    | some lx =>
      simp only []
      have hskip : cursorMeasure (skip_continuation_lines c1) ≤ cursorMeasure c1 :=
        mu_skip_le _
      set c2 := skip_continuation_lines c1 with hc2
      rcases hcl2 : c2.cur_line with _ | line
      · simp only [hcl2]
        omega
      · simp only [hcl2]
        have hloop : cursorMeasure (contents_loop "" line c2.rest c2.cur_line_number).2 ≤
            2 * c2.rest.length + 1 := mu_contents_loop_le _ _ _ _
        have hmu2 : cursorMeasure c2 = 2 * c2.rest.length + 1 := by
          simp [cursorMeasure, hcl2]
        rcases hres : contents_loop "" line c2.rest c2.cur_line_number with ⟨ores, c3⟩
        cases ores <;> simp only [] <;>
          (first
            | (have : cursorMeasure c3 ≤ 2 * c2.rest.length + 1 := by
                 simpa [hres] using hloop
               omega))

theorem mu_parse_blocks_go_le : ∀ (f : Nat) (blocks : List ChangeBlock) (c : Cursor),
    cursorMeasure (parse_blocks_go f blocks c).2 ≤ cursorMeasure c := by
  intro f
  induction f with
  | zero => intro blocks c; simp [parse_blocks_go]
  | succ f ih =>
    intro blocks c
    simp only [parse_blocks_go]
    rcases hcl : c.cur_line with _ | cur_line
    · simp
    · by_cases hch : DIFF_CHANGE_HEADER_REGEX cur_line
      · simp only [hch, if_pos]
        rcases hp : parse_change_block c with ⟨ob, c1⟩
        have hc1 : cursorMeasure c1 < cursorMeasure c := by
          have h := mu_parse_change_block_lt c cur_line hcl
          rw [hp] at h
          exact h
        cases ob with
        | none => simpa using le_of_lt hc1
        | some block =>
          simp only []
          calc cursorMeasure (parse_blocks_go f (blocks ++ [block]) c1).2
              ≤ cursorMeasure c1 := ih _ _
            _ ≤ cursorMeasure c := le_of_lt hc1
      · simp only [hch, Bool.false_eq_true, if_neg, not_false_iff]
        by_cases hco : DIFF_CONTENTS_HEADER_REGEX cur_line
        · simp only [hco, if_pos]
          rcases hp : parse_contents_block c with ⟨ob, c1⟩
          have hc1 : cursorMeasure c1 < cursorMeasure c := by
            have h := mu_parse_contents_block_lt c cur_line hcl
            rw [hp] at h
            exact h
          cases ob with
          | none => simpa using le_of_lt hc1
          | some block =>
            simp only []
            calc cursorMeasure (parse_blocks_go f (blocks ++ [block]) c1).2
                ≤ cursorMeasure c1 := ih _ _
              _ ≤ cursorMeasure c := le_of_lt hc1
        · simp [hco]

theorem parse_blocks_go_stable : ∀ (f g : Nat) (blocks : List ChangeBlock) (c : Cursor),
    cursorMeasure c < f → cursorMeasure c < g →
    parse_blocks_go f blocks c = parse_blocks_go g blocks c := by
  intro f
  induction f with
  | zero => intro g blocks c hf; omega
  | succ f ih =>
    intro g blocks c hf hg
    cases g with
    | zero => omega
    | succ g =>
      simp only [parse_blocks_go]
      rcases hcl : c.cur_line with _ | cur_line
      · rfl
      · by_cases hch : DIFF_CHANGE_HEADER_REGEX cur_line
        · simp only [hch, if_pos]
          rcases hp : parse_change_block c with ⟨ob, c1⟩
          have hc1 : cursorMeasure c1 < cursorMeasure c := by
            have h := mu_parse_change_block_lt c cur_line hcl
            rw [hp] at h
            exact h
          cases ob with
          | none => rfl
          | some block => exact ih g (blocks ++ [block]) c1 (by omega) (by omega)
        · simp only [hch, Bool.false_eq_true, if_neg, not_false_iff]
          by_cases hco : DIFF_CONTENTS_HEADER_REGEX cur_line
          · simp only [hco, if_pos]
            rcases hp : parse_contents_block c with ⟨ob, c1⟩
            have hc1 : cursorMeasure c1 < cursorMeasure c := by
              have h := mu_parse_contents_block_lt c cur_line hcl
              rw [hp] at h
              exact h
            cases ob with
            | none => rfl
            | some block => exact ih g (blocks ++ [block]) c1 (by omega) (by omega)
          · simp [hco]

/-- The fuel-free unfolding equation of parse_blocks_loop: it is
exactly the while-let loop over self.cur_line in parse_diff_marker. -/
theorem parse_blocks_loop_eq (blocks : List ChangeBlock) (c : Cursor) :
    parse_blocks_loop blocks c =
      match c.cur_line with
      | none => (some blocks, c)
      | some cur_line =>
        if DIFF_CHANGE_HEADER_REGEX cur_line then
          match parse_change_block c with
          | (some block, c1) => parse_blocks_loop (blocks ++ [block]) c1
          | (none, c1) => (none, c1)
        else if DIFF_CONTENTS_HEADER_REGEX cur_line then
          match parse_contents_block c with
          | (some block, c1) => parse_blocks_loop (blocks ++ [block]) c1
          | (none, c1) => (none, c1)
        else (some blocks, c) := by
  conv_lhs => rw [parse_blocks_loop]
  simp only [parse_blocks_go]
  rcases hcl : c.cur_line with _ | cur_line
  · rfl
  · by_cases hch : DIFF_CHANGE_HEADER_REGEX cur_line
    · simp only [hch, if_pos]
      rcases hp : parse_change_block c with ⟨ob, c1⟩
      have hc1 : cursorMeasure c1 < cursorMeasure c := by
        have h := mu_parse_change_block_lt c cur_line hcl
        rw [hp] at h
        exact h
      cases ob with
      | none => rfl
      | some block =>
        simp only [parse_blocks_loop]
        exact parse_blocks_go_stable _ _ _ _ (by omega) (by omega)
    · simp only [hch, Bool.false_eq_true, if_neg, not_false_iff]
      by_cases hco : DIFF_CONTENTS_HEADER_REGEX cur_line
      · simp only [hco, if_pos]
        rcases hp : parse_contents_block c with ⟨ob, c1⟩
        have hc1 : cursorMeasure c1 < cursorMeasure c := by
          have h := mu_parse_contents_block_lt c cur_line hcl
          rw [hp] at h
          exact h
        cases ob with
        | none => rfl
        | some block =>
          simp only [parse_blocks_loop]
          exact parse_blocks_go_stable _ _ _ _ (by omega) (by omega)
      · simp [hco]

theorem mu_parse_blocks_loop_le (blocks : List ChangeBlock) (c : Cursor) :
    cursorMeasure (parse_blocks_loop blocks c).2 ≤ cursorMeasure c := by
  rw [parse_blocks_loop]
  exact mu_parse_blocks_go_le _ _ _

theorem mu_parse_diff_marker_le (c : Cursor) :
    cursorMeasure (parse_diff_marker c).2 ≤ cursorMeasure c := by
  simp only [parse_diff_marker]
  rcases hr : get_range_of_current_line c with _ | tr
  · simp
  · have hsome : c.cur_line.isSome := by
      rcases c with ⟨rest, cl, n⟩
      cases cl
      · simp [get_range_of_current_line] at hr
      · simp
    have h1 : cursorMeasure (next c).2 < cursorMeasure c := mu_next_lt_of_isSome c hsome
    rcases hp : parse_blocks_loop [] (next c).2 with ⟨ob, c2⟩
    have h2 : cursorMeasure c2 ≤ cursorMeasure (next c).2 := by
      have h := mu_parse_blocks_loop_le [] (next c).2
      rw [hp] at h
      exact h
    cases ob with
    | none => simp only []; omega
    | some blocks =>
      rcases hcl2 : c2.cur_line with _ | cur_line <;> simp only [hcl2] <;> omega

theorem find_conflicts_go_stable : ∀ (f g : Nat) (conflicts : List Conflict) (c : Cursor),
    cursorMeasure c < f → cursorMeasure c < g →
    find_conflicts_go f conflicts c = find_conflicts_go g conflicts c := by
  intro f
  induction f with
  | zero => intro g conflicts c hf; omega
  | succ f ih =>
    intro g conflicts c hf hg
    cases g with
    | zero => omega
    | succ g =>
      simp only [find_conflicts_go]
      rcases hnx : next c with ⟨ol, c1⟩
      cases ol with
      | none => rfl
      | some line =>
        have hc1 : cursorMeasure c1 < cursorMeasure c := by
          have h := mu_next_lt_of_fst_some c line (by rw [hnx])
          rw [hnx] at h
          exact h
        simp only []
        by_cases hst : DIFF_CONFLICT_START_REGEX line
        · simp only [hst, if_pos]
          rcases hp : parse_diff_marker c1 with ⟨oc, c2⟩
          have hc2 : cursorMeasure c2 ≤ cursorMeasure c1 := by
            have h := mu_parse_diff_marker_le c1
            rw [hp] at h
            exact h
          cases oc with
          | none => exact ih g conflicts c2 (by omega) (by omega)
          | some conf => exact ih g (conflicts ++ [conf]) c2 (by omega) (by omega)
        · simp only [hst, Bool.false_eq_true, if_neg, not_false_iff]
          exact ih g conflicts c1 (by omega) (by omega)

/-- The fuel-free unfolding equation of find_conflicts_loop: it is
exactly the while-let loop of Analyzer::find_conflicts. -/
theorem find_conflicts_loop_eq (conflicts : List Conflict) (c : Cursor) :
    find_conflicts_loop conflicts c =
      match next c with
      | (none, _) => conflicts
      | (some line, c1) =>
        if DIFF_CONFLICT_START_REGEX line then
          match parse_diff_marker c1 with
          | (some conf, c2) => find_conflicts_loop (conflicts ++ [conf]) c2
          | (none, c2) => find_conflicts_loop conflicts c2
        else find_conflicts_loop conflicts c1 := by
  conv_lhs => rw [find_conflicts_loop]
  simp only [find_conflicts_go]
  rcases hnx : next c with ⟨ol, c1⟩
  cases ol with
  | none => rfl
  | some line =>
    have hc1 : cursorMeasure c1 < cursorMeasure c := by
      have h := mu_next_lt_of_fst_some c line (by rw [hnx])
      rw [hnx] at h
      exact h
    simp only []
    by_cases hst : DIFF_CONFLICT_START_REGEX line
    · simp only [hst, if_pos]
      rcases hp : parse_diff_marker c1 with ⟨oc, c2⟩
      have hc2 : cursorMeasure c2 ≤ cursorMeasure c1 := by
        have h := mu_parse_diff_marker_le c1
        rw [hp] at h
        exact h
      cases oc with
      | none =>
        simp only [find_conflicts_loop]
        exact find_conflicts_go_stable _ _ _ _ (by omega) (by omega)
      | some conf =>
        simp only [find_conflicts_loop]
        exact find_conflicts_go_stable _ _ _ _ (by omega) (by omega)
    · simp only [hst, Bool.false_eq_true, if_neg, not_false_iff]
      simp only [find_conflicts_loop]
      exact find_conflicts_go_stable _ _ _ _ (by omega) (by omega)

/-! Lemmas about the line classifiers: the first character of a line
determines which marker families it can possibly match, hence the five
categories are pairwise disjoint where the scanner relies on it. -/

theorem countLeading_pos_head (ch : Char) (l : List Char) (h : 0 < countLeading ch l) :
    l.head? = some ch := by
  cases l with
  | nil => simp [countLeading] at h
  | cons c cs =>
    by_cases hc : c = ch
    · simp [hc]
    · simp [countLeading, hc] at h

theorem conflict_start_head (s : String) (h : DIFF_CONFLICT_START_REGEX s = true) :
    s.toList.head? = some '<' := by
  simp only [DIFF_CONFLICT_START_REGEX, Bool.and_eq_true, decide_eq_true_eq] at h
  exact countLeading_pos_head _ _ (by omega)

theorem conflict_end_head (s : String) (h : DIFF_CONFLICT_END_REGEX s = true) :
    s.toList.head? = some '>' := by
  simp only [DIFF_CONFLICT_END_REGEX, Bool.and_eq_true, decide_eq_true_eq] at h
  exact countLeading_pos_head _ _ (by omega)

theorem change_header_head (s : String) (h : DIFF_CHANGE_HEADER_REGEX s = true) :
    s.toList.head? = some '%' := by
  simp only [DIFF_CHANGE_HEADER_REGEX, Bool.and_eq_true, decide_eq_true_eq] at h
  exact countLeading_pos_head _ _ (by omega)

theorem contents_header_head (s : String) (h : DIFF_CONTENTS_HEADER_REGEX s = true) :
    s.toList.head? = some '+' := by
  simp only [DIFF_CONTENTS_HEADER_REGEX, Bool.and_eq_true, decide_eq_true_eq] at h
  exact countLeading_pos_head _ _ (by omega)

theorem continuation_head (s : String) (h : DIFF_CONTINUATION_REGEX s = true) :
    s.toList.head? = some '\\' := by
  simp only [DIFF_CONTINUATION_REGEX, Bool.and_eq_true, decide_eq_true_eq] at h
  exact countLeading_pos_head _ _ (by omega)

/-- A conflict-start line matches none of the four known patterns:
this is the code fact behind claims C1 and C7. -/
theorem conflict_start_not_known (s : String) (h : DIFF_CONFLICT_START_REGEX s = true) :
    is_known_pattern s = false := by
  have hd := conflict_start_head s h
  simp only [is_known_pattern, Bool.or_eq_false_iff]
  refine ⟨⟨⟨?_, ?_⟩, ?_⟩, ?_⟩ <;>
    (apply Bool.eq_false_iff.mpr; intro hx)
  · rw [change_header_head s hx] at hd; simp at hd
  · rw [contents_header_head s hx] at hd; simp at hd
  · rw [conflict_end_head s hx] at hd; simp at hd
  · rw [continuation_head s hx] at hd; simp at hd

theorem conflict_end_not_change (s : String) (h : DIFF_CONFLICT_END_REGEX s = true) :
    DIFF_CHANGE_HEADER_REGEX s = false := by
  have hd := conflict_end_head s h
  apply Bool.eq_false_iff.mpr
  intro hx
  rw [change_header_head s hx] at hd
  simp at hd

theorem conflict_end_not_contents (s : String) (h : DIFF_CONFLICT_END_REGEX s = true) :
    DIFF_CONTENTS_HEADER_REGEX s = false := by
  have hd := conflict_end_head s h
  apply Bool.eq_false_iff.mpr
  intro hx
  rw [contents_header_head s hx] at hd
  simp at hd

theorem conflict_end_not_continuation (s : String) (h : DIFF_CONFLICT_END_REGEX s = true) :
    DIFF_CONTINUATION_REGEX s = false := by
  have hd := conflict_end_head s h
  apply Bool.eq_false_iff.mpr
  intro hx
  rw [continuation_head s hx] at hd
  simp at hd

theorem change_header_not_continuation (s : String) (h : DIFF_CHANGE_HEADER_REGEX s = true) :
    DIFF_CONTINUATION_REGEX s = false := by
  have hd := change_header_head s h
  apply Bool.eq_false_iff.mpr
  intro hx
  rw [continuation_head s hx] at hd
  simp at hd

theorem contents_header_not_continuation (s : String) (h : DIFF_CONTENTS_HEADER_REGEX s = true) :
    DIFF_CONTINUATION_REGEX s = false := by
  have hd := contents_header_head s h
  apply Bool.eq_false_iff.mpr
  intro hx
  rw [continuation_head s hx] at hd
  simp at hd

theorem change_header_known (s : String) (h : DIFF_CHANGE_HEADER_REGEX s = true) :
    is_known_pattern s = true := by
  simp [is_known_pattern, h]

theorem contents_header_known (s : String) (h : DIFF_CONTENTS_HEADER_REGEX s = true) :
    is_known_pattern s = true := by
  simp [is_known_pattern, h]

theorem conflict_end_known (s : String) (h : DIFF_CONFLICT_END_REGEX s = true) :
    is_known_pattern s = true := by
  simp [is_known_pattern, h]

theorem not_known_not_continuation (s : String) (h : is_known_pattern s = false) :
    DIFF_CONTINUATION_REGEX s = false := by
  simp only [is_known_pattern, Bool.or_eq_false_iff] at h
  exact h.2

/-! Run lemmas: the exact behavior of the skip, change and contents
loops and of the block parsers on well-formed chunk-shaped input. -/

theorem next_some_state (L : List String) (x : String) (n : Nat) :
    next ⟨L, some x, n⟩ = (L.head?, cursorAt L (n + 1)) := by
  cases L <;> simp [next, cursorAt]

theorem skip_run (conts : List String) : ∀ (x : String) (r : List String) (n : Nat),
    (∀ l ∈ conts, DIFF_CONTINUATION_REGEX l = true) →
    DIFF_CONTINUATION_REGEX x = false →
    skip_continuation_lines (cursorAt (conts ++ x :: r) n) =
      cursorAt (x :: r) (n + conts.length) := by
  induction conts with
  | nil =>
    intro x r n _ hx
    simp [cursorAt, skip_continuation_lines, skip_go.eq_def, hx]
  | cons c cs ih =>
    intro x r n hc hx
    have hc0 : DIFF_CONTINUATION_REGEX c = true := hc c (by simp)
    show skip_continuation_lines ⟨cs ++ x :: r, some c, n⟩ = _
    simp only [skip_continuation_lines]
    rw [skip_go.eq_def, if_pos hc0]
    have step : (match cs ++ x :: r with
        | [] => (⟨[], none, n + 1⟩ : Cursor)
        | l :: ls => skip_go l ls (n + 1)) =
        skip_continuation_lines (cursorAt (cs ++ x :: r) (n + 1)) := by
      cases cs with
      | nil => simp [cursorAt, skip_continuation_lines]
      | cons c2 cs2 => simp [cursorAt, skip_continuation_lines]
    rw [step, ih x r (n + 1) (fun l hl => hc l (by simp [hl])) hx]
    simp only [List.length_cons]
    congr 1
    omega

theorem skip_exhaust (conts : List String) : ∀ (n : Nat),
    (∀ l ∈ conts, DIFF_CONTINUATION_REGEX l = true) →
    skip_continuation_lines (cursorAt conts n) = ⟨[], none, n + conts.length⟩ := by
  induction conts with
  | nil => intro n _; simp [cursorAt, skip_continuation_lines]
  | cons c cs ih =>
    intro n hc
    have hc0 : DIFF_CONTINUATION_REGEX c = true := hc c (by simp)
    show skip_continuation_lines ⟨cs, some c, n⟩ = _
    simp only [skip_continuation_lines]
    rw [skip_go.eq_def, if_pos hc0]
    cases cs with
    | nil =>
      simp only [List.length_cons, List.length_nil]
    | cons c2 cs2 =>
      show skip_go c2 cs2 (n + 1) = _
      have h2 := ih (n + 1) (fun l hl => hc l (by simp [hl]))
      have hrw : skip_continuation_lines (cursorAt (c2 :: cs2) (n + 1)) =
          skip_go c2 cs2 (n + 1) := rfl
      rw [hrw] at h2
      rw [h2]
      have harith : n + 1 + (c2 :: cs2).length = n + (c :: c2 :: cs2).length := by
        simp only [List.length_cons]
        omega
      rw [harith]

theorem change_loop_run (mids : List String) : ∀ (content term : String) (r : List String) (n : Nat),
    (∀ l ∈ mids, is_known_pattern l = false) →
    is_known_pattern term = true →
    (match mids ++ term :: r with
     | [] => (none, (⟨[], none, 0⟩ : Cursor))
     | line :: rest => change_loop content line rest n) =
      (some (mids.foldl step_change content), ⟨r, some term, n + mids.length⟩) := by
  induction mids with
  | nil =>
    intro content term r n _ hterm
    simp [change_loop.eq_def, hterm]
  | cons m ms ih =>
    intro content term r n hmids hterm
    have hm : is_known_pattern m = false := hmids m (by simp)
    simp only [List.cons_append]
    rw [change_loop.eq_def, if_neg (by simp [hm])]
    have step : (match ms ++ term :: r with
        | [] => ((none : Option String), (⟨[], none, n + 1 + 1⟩ : Cursor))
        | l :: ls => change_loop (step_change content m) l ls (n + 1)) =
        (some (ms.foldl step_change (step_change content m)), ⟨r, some term, (n + 1) + ms.length⟩) := by
      have := ih (step_change content m) term r (n + 1)
        (fun l hl => hmids l (by simp [hl])) hterm
      cases hms : ms ++ term :: r with
      | nil => exact absurd hms (by simp)
      | cons l ls =>
        rw [hms] at this
        exact this
    rcases hms : ms ++ term :: r with _ | ⟨l, ls⟩
    · exact absurd hms (by simp)
    · rw [hms] at step
      rw [step]
      simp only [List.foldl_cons, List.length_cons]
      congr 2
      omega

theorem contents_loop_run (mids : List String) : ∀ (content term : String) (r : List String) (n : Nat),
    (∀ l ∈ mids, is_known_pattern l = false) →
    is_known_pattern term = true →
    (match mids ++ term :: r with
     | [] => (none, (⟨[], none, 0⟩ : Cursor))
     | line :: rest => contents_loop content line rest n) =
      (some (mids.foldl step_contents content), ⟨r, some term, n + mids.length⟩) := by
  induction mids with
  | nil =>
    intro content term r n _ hterm
    simp [contents_loop.eq_def, hterm]
  | cons m ms ih =>
    intro content term r n hmids hterm
    have hm : is_known_pattern m = false := hmids m (by simp)
    simp only [List.cons_append]
    rw [contents_loop.eq_def, if_neg (by simp [hm])]
    have step : (match ms ++ term :: r with
        | [] => ((none : Option String), (⟨[], none, n + 1 + 1⟩ : Cursor))
        | l :: ls => contents_loop (step_contents content m) l ls (n + 1)) =
        (some (ms.foldl step_contents (step_contents content m)), ⟨r, some term, (n + 1) + ms.length⟩) := by
      have := ih (step_contents content m) term r (n + 1)
        (fun l hl => hmids l (by simp [hl])) hterm
      cases hms : ms ++ term :: r with
      | nil => exact absurd hms (by simp)
      | cons l ls =>
        rw [hms] at this
        exact this
    rcases hms : ms ++ term :: r with _ | ⟨l, ls⟩
    · exact absurd hms (by simp)
    · rw [hms] at step
      rw [step]
      simp only [List.foldl_cons, List.length_cons]
      congr 2
      omega

theorem change_loop_exhaust (ms : List String) : ∀ (content m : String) (n : Nat),
    is_known_pattern m = false →
    (∀ l ∈ ms, is_known_pattern l = false) →
    change_loop content m ms n = (none, ⟨[], none, n + ms.length + 1⟩) := by
  induction ms with
  | nil =>
    intro content m n hm _
    simp [change_loop, hm]
  | cons l ls ih =>
    intro content m n hm hms
    rw [change_loop.eq_def, if_neg (by simp [hm])]
    show change_loop (step_change content m) l ls (n + 1) = _
    have h2 := ih (step_change content m) l (n + 1) (hms l (by simp))
      (fun x hx => hms x (by simp [hx]))
    rw [h2]
    have harith : n + 1 + ls.length + 1 = n + (l :: ls).length + 1 := by
      simp only [List.length_cons]
      omega
    rw [harith]

theorem contents_loop_exhaust (ms : List String) : ∀ (content m : String) (n : Nat),
    is_known_pattern m = false →
    (∀ l ∈ ms, is_known_pattern l = false) →
    contents_loop content m ms n = (none, ⟨[], none, n + ms.length + 1⟩) := by
  induction ms with
  | nil =>
    intro content m n hm _
    simp [contents_loop, hm]
  | cons l ls ih =>
    intro content m n hm hms
    rw [contents_loop.eq_def, if_neg (by simp [hm])]
    show contents_loop (step_contents content m) l ls (n + 1) = _
    have h2 := ih (step_contents content m) l (n + 1) (hms l (by simp))
      (fun x hx => hms x (by simp [hx]))
    rw [h2]
    have harith : n + 1 + ls.length + 1 = n + (l :: ls).length + 1 := by
      simp only [List.length_cons]
      omega
    rw [harith]

theorem parse_change_block_run (hdr : String) (conts mids : List String)
    (term : String) (r : List String) (n : Nat)
    (hconts : ∀ l ∈ conts, DIFF_CONTINUATION_REGEX l = true)
    (hmids : ∀ l ∈ mids, is_known_pattern l = false)
    (hterm : is_known_pattern term = true)
    (htermc : DIFF_CONTINUATION_REGEX term = false) :
    parse_change_block ⟨conts ++ mids ++ term :: r, some hdr, n⟩ =
      (some ⟨rangeOfLine n hdr, mids.foldl step_change ""⟩,
       ⟨r, some term, n + 1 + conts.length + mids.length⟩) := by
  simp only [parse_change_block, get_range_of_current_line]
  rw [next_some_state]
  have hskip : skip_continuation_lines (cursorAt (conts ++ mids ++ term :: r) (n + 1)) =
      cursorAt (mids ++ term :: r) (n + 1 + conts.length) := by
    cases mids with
    | nil =>
      simpa using skip_run conts term r (n + 1) hconts htermc
    | cons m ms =>
      have hm : DIFF_CONTINUATION_REGEX m = false :=
        not_known_not_continuation m (hmids m (by simp))
      simpa using skip_run conts m (ms ++ term :: r) (n + 1) hconts hm
  rw [hskip]
  cases mids with
  | nil =>
    simp only [List.nil_append, cursorAt]
    rw [change_loop.eq_def, if_pos hterm]
    simp [rangeOfLine]
  | cons m ms =>
    simp only [List.cons_append, cursorAt]
    have hrun := change_loop_run (m :: ms) "" term r (n + 1 + conts.length) hmids hterm
    simp only [List.cons_append] at hrun
    rw [hrun]
    simp only [List.length_cons, rangeOfLine]

theorem parse_contents_block_run (hdr : String) (conts mids : List String)
    (term : String) (r : List String) (n : Nat)
    (hconts : ∀ l ∈ conts, DIFF_CONTINUATION_REGEX l = true)
    (hmids : ∀ l ∈ mids, is_known_pattern l = false)
    (hterm : is_known_pattern term = true)
    (htermc : DIFF_CONTINUATION_REGEX term = false) :
    parse_contents_block ⟨conts ++ mids ++ term :: r, some hdr, n⟩ =
      (some ⟨rangeOfLine n hdr, mids.foldl step_contents ""⟩,
       ⟨r, some term, n + 1 + conts.length + mids.length⟩) := by
  simp only [parse_contents_block, get_range_of_current_line]
  rw [next_some_state]
  have hne : conts ++ mids ++ term :: r ≠ [] := by simp
  rcases hL : conts ++ mids ++ term :: r with _ | ⟨y, ys⟩
  · exact absurd hL hne
  · simp only [List.head?_cons]
    have hskip : skip_continuation_lines (cursorAt (y :: ys) (n + 1)) =
        cursorAt (mids ++ term :: r) (n + 1 + conts.length) := by
      rw [← hL]
      cases mids with
      | nil =>
        simpa using skip_run conts term r (n + 1) hconts htermc
      | cons m ms =>
        have hm : DIFF_CONTINUATION_REGEX m = false :=
          not_known_not_continuation m (hmids m (by simp))
        simpa using skip_run conts m (ms ++ term :: r) (n + 1) hconts hm
    rw [hskip]
    cases mids with
    | nil =>
      simp only [List.nil_append, cursorAt]
      rw [contents_loop.eq_def, if_pos hterm]
      simp [rangeOfLine]
    | cons m ms =>
      simp only [List.cons_append, cursorAt]
      have hrun := contents_loop_run (m :: ms) "" term r (n + 1 + conts.length) hmids hterm
      simp only [List.cons_append] at hrun
      rw [hrun]
      simp only [List.length_cons, rangeOfLine]

theorem parse_change_block_exhaust (hdr : String) (conts mids : List String) (n : Nat)
    (hconts : ∀ l ∈ conts, DIFF_CONTINUATION_REGEX l = true)
    (hmids : ∀ l ∈ mids, is_known_pattern l = false) :
    parse_change_block ⟨conts ++ mids, some hdr, n⟩ =
      (none, ⟨[], none, n + 1 + conts.length + mids.length⟩) := by
  simp only [parse_change_block, get_range_of_current_line]
  rw [next_some_state]
  cases mids with
  | nil =>
    have hskip : skip_continuation_lines (cursorAt (conts ++ []) (n + 1)) =
        ⟨[], none, n + 1 + conts.length⟩ := by
      simpa using skip_exhaust conts (n + 1) hconts
    rw [hskip]
    simp
  | cons m ms =>
    have hm : DIFF_CONTINUATION_REGEX m = false :=
      not_known_not_continuation m (hmids m (by simp))
    have hskip : skip_continuation_lines (cursorAt (conts ++ m :: ms) (n + 1)) =
        cursorAt (m :: ms) (n + 1 + conts.length) := skip_run conts m ms (n + 1) hconts hm
    rw [hskip]
    simp only [cursorAt]
    rw [change_loop_exhaust ms "" m (n + 1 + conts.length) (hmids m (by simp))
      (fun x hx => hmids x (by simp [hx]))]
    have harith : n + 1 + conts.length + ms.length + 1 =
        n + 1 + conts.length + (m :: ms).length := by
      simp only [List.length_cons]
      omega
    rw [harith]

theorem parse_contents_block_exhaust (hdr : String) (conts mids : List String) (n : Nat)
    (hconts : ∀ l ∈ conts, DIFF_CONTINUATION_REGEX l = true)
    (hmids : ∀ l ∈ mids, is_known_pattern l = false) :
    parse_contents_block ⟨conts ++ mids, some hdr, n⟩ =
      (none, ⟨[], none, n + 1 + conts.length + mids.length⟩) := by
  simp only [parse_contents_block, get_range_of_current_line]
  rw [next_some_state]
  rcases hL : conts ++ mids with _ | ⟨y, ys⟩
  · have hc0 : conts = [] := by
      cases conts
      · rfl
      · simp at hL
    have hm0 : mids = [] := by
      cases mids
      · rfl
      · rw [hc0] at hL
        simp at hL
    subst hc0
    subst hm0
    simp [cursorAt]
  · simp only [List.head?_cons]
    cases mids with
    | nil =>
      have hskip : skip_continuation_lines (cursorAt (y :: ys) (n + 1)) =
          ⟨[], none, n + 1 + conts.length⟩ := by
        rw [← hL]
        simpa using skip_exhaust conts (n + 1) hconts
      rw [hskip]
      simp
    | cons m ms =>
      have hm : DIFF_CONTINUATION_REGEX m = false :=
        not_known_not_continuation m (hmids m (by simp))
      have hskip : skip_continuation_lines (cursorAt (y :: ys) (n + 1)) =
          cursorAt (m :: ms) (n + 1 + conts.length) := by
        rw [← hL]
        exact skip_run conts m ms (n + 1) hconts hm
      rw [hskip]
      simp only [cursorAt]
      rw [contents_loop_exhaust ms "" m (n + 1 + conts.length) (hmids m (by simp))
        (fun x hx => hmids x (by simp [hx]))]
      have harith : n + 1 + conts.length + ms.length + 1 =
          n + 1 + conts.length + (m :: ms).length := by
        simp only [List.length_cons]
        omega
      rw [harith]

theorem contents_header_not_change (s : String) (h : DIFF_CONTENTS_HEADER_REGEX s = true) :
    DIFF_CHANGE_HEADER_REGEX s = false := by
  have hd := contents_header_head s h
  apply Bool.eq_false_iff.mpr
  intro hx
  rw [change_header_head s hx] at hd
  simp at hd

theorem chunks_head_term (chunks : List Chunk) (endL : String) (r : List String)
    (hch : ∀ ch ∈ chunks, ch.Wf)
    (hk : is_known_pattern endL = true) (hc : DIFF_CONTINUATION_REGEX endL = false) :
    ∃ term r2, chunksLines chunks ++ endL :: r = term :: r2 ∧
      is_known_pattern term = true ∧ DIFF_CONTINUATION_REGEX term = false := by
  cases chunks with
  | nil => exact ⟨endL, r, by simp [chunksLines], hk, hc⟩
  | cons ch rest =>
    obtain ⟨hhdr, -, -⟩ := hch ch (by simp)
    refine ⟨ch.hdr, (ch.conts ++ ch.mids) ++ (chunksLines rest ++ endL :: r), ?_, ?_, ?_⟩
    · simp [chunksLines, Chunk.lines]
    · cases hhdr with
      | inl h => exact change_header_known _ h
      | inr h => exact contents_header_known _ h
    · cases hhdr with
      | inl h => exact change_header_not_continuation _ h
      | inr h => exact contents_header_not_continuation _ h

theorem parse_blocks_loop_run (chunks : List Chunk) :
    ∀ (acc : List ChangeBlock) (endL : String) (r : List String) (n : Nat),
    (∀ ch ∈ chunks, ch.Wf) →
    is_known_pattern endL = true →
    DIFF_CHANGE_HEADER_REGEX endL = false →
    DIFF_CONTENTS_HEADER_REGEX endL = false →
    DIFF_CONTINUATION_REGEX endL = false →
    parse_blocks_loop acc (cursorAt (chunksLines chunks ++ endL :: r) n) =
      (some (acc ++ chunksBlocks chunks n),
       cursorAt (endL :: r) (n + (chunksLines chunks).length)) := by
  induction chunks with
  | nil =>
    intro acc endL r n _ hk hch hco _
    rw [parse_blocks_loop_eq]
    simp [chunksLines, cursorAt, chunksBlocks, hch, hco]
  | cons ch rest ih =>
    intro acc endL r n hwf hk hch hco hcn
    obtain ⟨hhdr, hconts, hmids⟩ := hwf ch (by simp)
    obtain ⟨term, r2, hterm_eq, hterm_k, hterm_c⟩ :=
      chunks_head_term rest endL r (fun x hx => hwf x (by simp [hx])) hk hcn
    have hshape : chunksLines (ch :: rest) ++ endL :: r =
        ch.hdr :: (ch.conts ++ (ch.mids ++ term :: r2)) := by
      show Chunk.lines ch ++ chunksLines rest ++ endL :: r = _
      rw [Chunk.lines]
      simp only [List.cons_append, List.append_assoc, hterm_eq]
    rw [hshape]
    rw [parse_blocks_loop_eq]
    simp only [cursorAt]
    have harr : ch.conts ++ (ch.mids ++ term :: r2) = ch.conts ++ ch.mids ++ term :: r2 := by
      simp [List.append_assoc]
    cases hhdr with
    | inl hchg =>
      simp only [hchg, if_pos]
      rw [harr, parse_change_block_run ch.hdr ch.conts ch.mids term r2 n hconts hmids
        hterm_k hterm_c]
      have hcur : (⟨r2, some term, n + 1 + ch.conts.length + ch.mids.length⟩ : Cursor) =
          cursorAt (chunksLines rest ++ endL :: r) (n + ch.lines.length) := by
        rw [hterm_eq, cursorAt]
        have : n + 1 + ch.conts.length + ch.mids.length = n + ch.lines.length := by
          simp only [Chunk.lines, List.length_cons, List.length_append]
          omega
        rw [this]
      rw [hcur]
      show parse_blocks_loop (acc ++ [⟨rangeOfLine n ch.hdr, ch.mids.foldl step_change ""⟩])
        (cursorAt (chunksLines rest ++ endL :: r) (n + ch.lines.length)) = _
      rw [ih _ endL r _ (fun x hx => hwf x (by simp [hx])) hk hch hco hcn]
      have hblock : (⟨rangeOfLine n ch.hdr, ch.mids.foldl step_change ""⟩ : ChangeBlock) =
          ch.block n := by
        simp [Chunk.block, hchg]
      rw [hblock]
      have hlen : n + ch.lines.length + (chunksLines rest).length =
          n + (chunksLines (ch :: rest)).length := by
        show _ = n + (Chunk.lines ch ++ chunksLines rest).length
        simp only [List.length_append]
        omega
      rw [hlen]
      have hacc : acc ++ [ch.block n] ++ chunksBlocks rest (n + ch.lines.length) =
          acc ++ chunksBlocks (ch :: rest) n := by
        show _ = acc ++ (ch.block n :: chunksBlocks rest (n + ch.lines.length))
        simp
      rw [hacc]
      rfl
    | inr hcts =>
      have hnotchg : DIFF_CHANGE_HEADER_REGEX ch.hdr = false :=
        contents_header_not_change _ hcts
      simp only [hnotchg, Bool.false_eq_true, if_neg, not_false_iff, hcts, if_pos]
      rw [harr, parse_contents_block_run ch.hdr ch.conts ch.mids term r2 n hconts hmids
        hterm_k hterm_c]
      have hcur : (⟨r2, some term, n + 1 + ch.conts.length + ch.mids.length⟩ : Cursor) =
          cursorAt (chunksLines rest ++ endL :: r) (n + ch.lines.length) := by
        rw [hterm_eq, cursorAt]
        have : n + 1 + ch.conts.length + ch.mids.length = n + ch.lines.length := by
          simp only [Chunk.lines, List.length_cons, List.length_append]
          omega
        rw [this]
      rw [hcur]
      show parse_blocks_loop (acc ++ [⟨rangeOfLine n ch.hdr, ch.mids.foldl step_contents ""⟩])
        (cursorAt (chunksLines rest ++ endL :: r) (n + ch.lines.length)) = _
      rw [ih _ endL r _ (fun x hx => hwf x (by simp [hx])) hk hch hco hcn]
      have hblock : (⟨rangeOfLine n ch.hdr, ch.mids.foldl step_contents ""⟩ : ChangeBlock) =
          ch.block n := by
        simp [Chunk.block, hnotchg]
      rw [hblock]
      have hlen : n + ch.lines.length + (chunksLines rest).length =
          n + (chunksLines (ch :: rest)).length := by
        show _ = n + (Chunk.lines ch ++ chunksLines rest).length
        simp only [List.length_append]
        omega
      rw [hlen]
      have hacc : acc ++ [ch.block n] ++ chunksBlocks rest (n + ch.lines.length) =
          acc ++ chunksBlocks (ch :: rest) n := by
        show _ = acc ++ (ch.block n :: chunksBlocks rest (n + ch.lines.length))
        simp
      rw [hacc]
      rfl

theorem parse_blocks_loop_bad (chunks : List Chunk) :
    ∀ (acc : List ChangeBlock) (bhdr : String) (bconts bmids : List String) (n : Nat),
    (∀ ch ∈ chunks, ch.Wf) →
    (DIFF_CHANGE_HEADER_REGEX bhdr = true ∨ DIFF_CONTENTS_HEADER_REGEX bhdr = true) →
    (∀ l ∈ bconts, DIFF_CONTINUATION_REGEX l = true) →
    (∀ l ∈ bmids, is_known_pattern l = false) →
    parse_blocks_loop acc (cursorAt (chunksLines chunks ++ bhdr :: (bconts ++ bmids)) n) =
      (none, ⟨[], none,
        n + (chunksLines chunks).length + 1 + bconts.length + bmids.length⟩) := by
  induction chunks with
  | nil =>
    intro acc bhdr bconts bmids n _ hbh hbc hbm
    rw [parse_blocks_loop_eq]
    simp only [chunksLines, List.nil_append, cursorAt]
    cases hbh with
    | inl hchg =>
      simp only [hchg, if_pos]
      rw [parse_change_block_exhaust bhdr bconts bmids n hbc hbm]
      show (none, _) = (none, (⟨[], none, _⟩ : Cursor))
      have : n + 1 + bconts.length + bmids.length =
          n + List.length ([] : List String) + 1 + bconts.length + bmids.length := by simp
      rw [← this]
    | inr hcts =>
      have hnotchg : DIFF_CHANGE_HEADER_REGEX bhdr = false :=
        contents_header_not_change _ hcts
      simp only [hnotchg, Bool.false_eq_true, if_neg, not_false_iff, hcts, if_pos]
      rw [parse_contents_block_exhaust bhdr bconts bmids n hbc hbm]
      show (none, _) = (none, (⟨[], none, _⟩ : Cursor))
      have : n + 1 + bconts.length + bmids.length =
          n + List.length ([] : List String) + 1 + bconts.length + bmids.length := by simp
      rw [← this]
  | cons ch rest ih =>
    intro acc bhdr bconts bmids n hwf hbh hbc hbm
    obtain ⟨hhdr, hconts, hmids⟩ := hwf ch (by simp)
    have hbk : is_known_pattern bhdr = true := by
      cases hbh with
      | inl h => exact change_header_known _ h
      | inr h => exact contents_header_known _ h
    have hbcn : DIFF_CONTINUATION_REGEX bhdr = false := by
      cases hbh with
      | inl h => exact change_header_not_continuation _ h
      | inr h => exact contents_header_not_continuation _ h
    obtain ⟨term, r2, hterm_eq, hterm_k, hterm_c⟩ :=
      chunks_head_term rest bhdr (bconts ++ bmids)
        (fun x hx => hwf x (by simp [hx])) hbk hbcn
    have hshape : chunksLines (ch :: rest) ++ bhdr :: (bconts ++ bmids) =
        ch.hdr :: (ch.conts ++ (ch.mids ++ term :: r2)) := by
      show Chunk.lines ch ++ chunksLines rest ++ bhdr :: (bconts ++ bmids) = _
      rw [Chunk.lines]
      simp only [List.cons_append, List.append_assoc, hterm_eq]
    rw [hshape]
    rw [parse_blocks_loop_eq]
    simp only [cursorAt]
    have harr : ch.conts ++ (ch.mids ++ term :: r2) = ch.conts ++ ch.mids ++ term :: r2 := by
      simp [List.append_assoc]
    have hcur : (⟨r2, some term, n + 1 + ch.conts.length + ch.mids.length⟩ : Cursor) =
        cursorAt (chunksLines rest ++ bhdr :: (bconts ++ bmids)) (n + ch.lines.length) := by
      rw [hterm_eq, cursorAt]
      have : n + 1 + ch.conts.length + ch.mids.length = n + ch.lines.length := by
        simp only [Chunk.lines, List.length_cons, List.length_append]
        omega
      rw [this]
    have hnum : n + ch.lines.length + (chunksLines rest).length + 1 +
        bconts.length + bmids.length =
        n + (chunksLines (ch :: rest)).length + 1 + bconts.length + bmids.length := by
      show _ = n + (Chunk.lines ch ++ chunksLines rest).length + 1 + _ + _
      simp only [List.length_append]
      omega
    cases hhdr with
    | inl hchg =>
      simp only [hchg, if_pos]
      rw [harr, parse_change_block_run ch.hdr ch.conts ch.mids term r2 n hconts hmids
        hterm_k hterm_c]
      rw [hcur]
      show parse_blocks_loop (acc ++ [⟨rangeOfLine n ch.hdr, ch.mids.foldl step_change ""⟩])
        (cursorAt (chunksLines rest ++ bhdr :: (bconts ++ bmids)) (n + ch.lines.length)) = _
      rw [ih _ bhdr bconts bmids _ (fun x hx => hwf x (by simp [hx])) hbh hbc hbm]
      rw [hnum]
    | inr hcts =>
      have hnotchg : DIFF_CHANGE_HEADER_REGEX ch.hdr = false :=
        contents_header_not_change _ hcts
      simp only [hnotchg, Bool.false_eq_true, if_neg, not_false_iff, hcts, if_pos]
      rw [harr, parse_contents_block_run ch.hdr ch.conts ch.mids term r2 n hconts hmids
        hterm_k hterm_c]
      rw [hcur]
      show parse_blocks_loop (acc ++ [⟨rangeOfLine n ch.hdr, ch.mids.foldl step_contents ""⟩])
        (cursorAt (chunksLines rest ++ bhdr :: (bconts ++ bmids)) (n + ch.lines.length)) = _
      rw [ih _ bhdr bconts bmids _ (fun x hx => hwf x (by simp [hx])) hbh hbc hbm]
      rw [hnum]

/-- Behavior of parse_diff_marker on a well-formed, fully closed
conflict: the current line is the start marker, then the chunks, then
the end marker; the produced record is Cflt.record. -/
theorem parse_diff_marker_run (startL : String) (chunks : List Chunk) (endL : String)
    (r : List String) (n : Nat)
    (hch : ∀ ch ∈ chunks, ch.Wf)
    (hend : DIFF_CONFLICT_END_REGEX endL = true) :
    parse_diff_marker ⟨chunksLines chunks ++ endL :: r, some startL, n⟩ =
      (some (Cflt.record ⟨startL, chunks, endL⟩ n),
       cursorAt (endL :: r) (n + 1 + (chunksLines chunks).length)) := by
  have hk : is_known_pattern endL = true := conflict_end_known _ hend
  have hnc : DIFF_CHANGE_HEADER_REGEX endL = false := conflict_end_not_change _ hend
  have hno : DIFF_CONTENTS_HEADER_REGEX endL = false := conflict_end_not_contents _ hend
  have hnn : DIFF_CONTINUATION_REGEX endL = false := conflict_end_not_continuation _ hend
  simp only [parse_diff_marker, get_range_of_current_line]
  rw [next_some_state]
  show (match parse_blocks_loop []
      (cursorAt (chunksLines chunks ++ endL :: r) (n + 1)) with
    | (none, c2) => ((none : Option Conflict), c2)
    | (some blocks, c2) =>
      match c2.cur_line with
      | none => (none, c2)
      | some cur_line =>
        (some ⟨⟨(rangeOfLine n startL).start, ⟨c2.cur_line_number, get_utf16_len cur_line⟩⟩,
          rangeOfLine n startL, blocks⟩, c2)) = _
  rw [parse_blocks_loop_run chunks [] endL r (n + 1) hch hk hnc hno hnn]
  simp only [cursorAt, List.nil_append]
  show (some (⟨⟨(rangeOfLine n startL).start,
      ⟨n + 1 + (chunksLines chunks).length, get_utf16_len endL⟩⟩,
      rangeOfLine n startL, chunksBlocks chunks (n + 1)⟩ : Conflict),
    (⟨r, some endL, n + 1 + (chunksLines chunks).length⟩ : Cursor)) = _
  rfl

/-- Behavior of parse_diff_marker when a block parser hits the end of
input: no record, cursor exhausted. -/
theorem parse_diff_marker_bad (startL : String) (chunks : List Chunk)
    (bhdr : String) (bconts bmids : List String) (n : Nat)
    (hch : ∀ ch ∈ chunks, ch.Wf)
    (hbh : DIFF_CHANGE_HEADER_REGEX bhdr = true ∨ DIFF_CONTENTS_HEADER_REGEX bhdr = true)
    (hbc : ∀ l ∈ bconts, DIFF_CONTINUATION_REGEX l = true)
    (hbm : ∀ l ∈ bmids, is_known_pattern l = false) :
    parse_diff_marker ⟨chunksLines chunks ++ bhdr :: (bconts ++ bmids), some startL, n⟩ =
      (none, ⟨[], none,
        n + 1 + (chunksLines chunks).length + 1 + bconts.length + bmids.length⟩) := by
  simp only [parse_diff_marker, get_range_of_current_line]
  rw [next_some_state]
  show (match parse_blocks_loop []
      (cursorAt (chunksLines chunks ++ bhdr :: (bconts ++ bmids)) (n + 1)) with
    | (none, c2) => ((none : Option Conflict), c2)
    | (some blocks, c2) =>
      match c2.cur_line with
      | none => (none, c2)
      | some cur_line =>
        (some ⟨⟨(rangeOfLine n startL).start, ⟨c2.cur_line_number, get_utf16_len cur_line⟩⟩,
          rangeOfLine n startL, blocks⟩, c2)) = _
  rw [parse_blocks_loop_bad chunks [] bhdr bconts bmids (n + 1) hch hbh hbc hbm]

theorem next_cons (l : String) (L : List String) (cl : Option String) (n : Nat) :
    next ⟨l :: L, cl, n⟩ =
      (some l, ⟨L, some l, n + (if cl.isSome then 1 else 0)⟩) := by
  cases cl <;> simp [next]

theorem next_nil_fst (cl : Option String) (n : Nat) : (next ⟨[], cl, n⟩).1 = none := by
  cases cl <;> simp [next]

theorem cflt_lines_shape (cf : Cflt) (L : List String) :
    cf.lines ++ L = cf.startL :: (chunksLines cf.chunks ++ cf.endL :: L) := by
  show (cf.startL :: (chunksLines cf.chunks ++ [cf.endL])) ++ L = _
  simp [List.append_assoc]

/-- Master lemma for the scan over a well-formed segment list: the
loop appends exactly the records of the conflicts, in document
order. -/
theorem find_loop_segs (segs : List Seg) :
    ∀ (conflicts : List Conflict) (cl : Option String) (n : Nat),
    SegsWf segs →
    find_conflicts_loop conflicts ⟨segLines segs, cl, n⟩ =
      conflicts ++ segsConflicts segs (n + (if cl.isSome then 1 else 0)) := by
  induction segs with
  | nil =>
    intro conflicts cl n _
    rw [find_conflicts_loop_eq]
    show conflicts = _
    simp [segsConflicts, segLines]
  | cons s rest ih =>
    intro conflicts cl n hwf
    cases s with
    | inl l =>
      have hl : DIFF_CONFLICT_START_REGEX l = false := hwf (Sum.inl l) (by simp)
      rw [find_conflicts_loop_eq]
      show (match next ⟨l :: segLines rest, cl, n⟩ with
        | (none, _) => conflicts
        | (some line, c1) =>
          if DIFF_CONFLICT_START_REGEX line then
            match parse_diff_marker c1 with
            | (some conf, c2) => find_conflicts_loop (conflicts ++ [conf]) c2
            | (none, c2) => find_conflicts_loop conflicts c2
          else find_conflicts_loop conflicts c1) = _
      rw [next_cons]
      simp only [hl, Bool.false_eq_true, if_neg, not_false_iff]
      rw [ih conflicts (some l) (n + (if cl.isSome then 1 else 0))
        (fun x hx => hwf x (by simp [hx]))]
      show _ = conflicts ++ segsConflicts rest (n + (if cl.isSome then 1 else 0) + 1)
      simp
    | inr cf =>
      obtain ⟨hstart, hchunks, hend⟩ := hwf (Sum.inr cf) (by simp)
      rw [find_conflicts_loop_eq]
      show (match next ⟨cf.lines ++ segLines rest, cl, n⟩ with
        | (none, _) => conflicts
        | (some line, c1) =>
          if DIFF_CONFLICT_START_REGEX line then
            match parse_diff_marker c1 with
            | (some conf, c2) => find_conflicts_loop (conflicts ++ [conf]) c2
            | (none, c2) => find_conflicts_loop conflicts c2
          else find_conflicts_loop conflicts c1) = _
      rw [cflt_lines_shape]
      rw [next_cons]
      simp only [hstart, if_pos]
      have hpd := parse_diff_marker_run cf.startL cf.chunks cf.endL (segLines rest)
        (n + (if cl.isSome then 1 else 0)) hchunks hend
      have hcf : (⟨cf.startL, cf.chunks, cf.endL⟩ : Cflt) = cf := rfl
      rw [hcf] at hpd
      rw [hpd]
      simp only [cursorAt]
      rw [ih (conflicts ++ [cf.record (n + (if cl.isSome then 1 else 0))]) (some cf.endL)
        (n + (if cl.isSome then 1 else 0) + 1 + (chunksLines cf.chunks).length)
        (fun x hx => hwf x (by simp [hx]))]
      show _ = conflicts ++ (cf.record (n + (if cl.isSome then 1 else 0)) ::
        segsConflicts rest (n + (if cl.isSome then 1 else 0) + cf.lines.length))
      have hlen : cf.lines.length = (chunksLines cf.chunks).length + 2 := by
        show (cf.startL :: (chunksLines cf.chunks ++ [cf.endL])).length = _
        simp
      rw [List.append_assoc]
      simp only [List.singleton_append]
      have hbump : (if (some cf.endL).isSome = true then (1 : Nat) else 0) = 1 := rfl
      rw [hbump]
      have harith : n + (if cl.isSome then 1 else 0) + 1 +
          (chunksLines cf.chunks).length + 1 =
          n + (if cl.isSome then 1 else 0) + cf.lines.length := by
        rw [hlen]
        omega
      rw [harith]

/-- Master lemma for a scan that ends in an unterminated conflict: a
start marker, some complete chunks, then a block whose content never
reaches a known pattern before the input ends.  The unterminated
conflict contributes no record. -/
theorem find_loop_segs_bad (segs : List Seg) :
    ∀ (conflicts : List Conflict) (cl : Option String) (n : Nat)
      (startL : String) (bchunks : List Chunk) (bhdr : String)
      (bconts bmids : List String),
    SegsWf segs →
    DIFF_CONFLICT_START_REGEX startL = true →
    (∀ ch ∈ bchunks, ch.Wf) →
    (DIFF_CHANGE_HEADER_REGEX bhdr = true ∨ DIFF_CONTENTS_HEADER_REGEX bhdr = true) →
    (∀ l ∈ bconts, DIFF_CONTINUATION_REGEX l = true) →
    (∀ l ∈ bmids, is_known_pattern l = false) →
    find_conflicts_loop conflicts
      ⟨segLines segs ++ startL :: (chunksLines bchunks ++ bhdr :: (bconts ++ bmids)), cl, n⟩ =
      conflicts ++ segsConflicts segs (n + (if cl.isSome then 1 else 0)) := by
  induction segs with
  | nil =>
    intro conflicts cl n startL bchunks bhdr bconts bmids _ hst hbch hbh hbc hbm
    rw [find_conflicts_loop_eq]
    show (match next ⟨startL :: (chunksLines bchunks ++ bhdr :: (bconts ++ bmids)), cl, n⟩ with
      | (none, _) => conflicts
      | (some line, c1) =>
        if DIFF_CONFLICT_START_REGEX line then
          match parse_diff_marker c1 with
          | (some conf, c2) => find_conflicts_loop (conflicts ++ [conf]) c2
          | (none, c2) => find_conflicts_loop conflicts c2
        else find_conflicts_loop conflicts c1) = _
    rw [next_cons]
    simp only [hst, if_pos]
    rw [parse_diff_marker_bad startL bchunks bhdr bconts bmids
      (n + (if cl.isSome then 1 else 0)) hbch hbh hbc hbm]
    show find_conflicts_loop conflicts ⟨[], none,
      n + (if cl.isSome then 1 else 0) + 1 +
        (chunksLines bchunks).length + 1 + bconts.length + bmids.length⟩ = _
    rw [find_conflicts_loop_eq]
    show conflicts = _
    simp [segsConflicts, segLines]
  | cons s rest ih =>
    intro conflicts cl n startL bchunks bhdr bconts bmids hwf hst hbch hbh hbc hbm
    cases s with
    | inl l =>
      have hl : DIFF_CONFLICT_START_REGEX l = false := hwf (Sum.inl l) (by simp)
      rw [find_conflicts_loop_eq]
      show (match next ⟨l :: (segLines rest ++ startL ::
          (chunksLines bchunks ++ bhdr :: (bconts ++ bmids))), cl, n⟩ with
        | (none, _) => conflicts
        | (some line, c1) =>
          if DIFF_CONFLICT_START_REGEX line then
            match parse_diff_marker c1 with
            | (some conf, c2) => find_conflicts_loop (conflicts ++ [conf]) c2
            | (none, c2) => find_conflicts_loop conflicts c2
          else find_conflicts_loop conflicts c1) = _
      rw [next_cons]
      simp only [hl, Bool.false_eq_true, if_neg, not_false_iff]
      rw [ih conflicts (some l) (n + (if cl.isSome then 1 else 0)) startL bchunks bhdr
        bconts bmids (fun x hx => hwf x (by simp [hx])) hst hbch hbh hbc hbm]
      show _ = conflicts ++ segsConflicts rest (n + (if cl.isSome then 1 else 0) + 1)
      simp
    | inr cf =>
      obtain ⟨hstart, hchunks, hend⟩ := hwf (Sum.inr cf) (by simp)
      rw [find_conflicts_loop_eq]
      show (match next ⟨(cf.lines ++ segLines rest) ++ startL ::
          (chunksLines bchunks ++ bhdr :: (bconts ++ bmids)), cl, n⟩ with
        | (none, _) => conflicts
        | (some line, c1) =>
          if DIFF_CONFLICT_START_REGEX line then
            match parse_diff_marker c1 with
            | (some conf, c2) => find_conflicts_loop (conflicts ++ [conf]) c2
            | (none, c2) => find_conflicts_loop conflicts c2
          else find_conflicts_loop conflicts c1) = _
      rw [List.append_assoc, cflt_lines_shape]
      rw [next_cons]
      simp only [hstart, if_pos]
      have hpd := parse_diff_marker_run cf.startL cf.chunks cf.endL
        (segLines rest ++ startL :: (chunksLines bchunks ++ bhdr :: (bconts ++ bmids)))
        (n + (if cl.isSome then 1 else 0)) hchunks hend
      have hcf : (⟨cf.startL, cf.chunks, cf.endL⟩ : Cflt) = cf := rfl
      rw [hcf] at hpd
      rw [hpd]
      simp only [cursorAt]
      rw [ih (conflicts ++ [cf.record (n + (if cl.isSome then 1 else 0))]) (some cf.endL)
        (n + (if cl.isSome then 1 else 0) + 1 + (chunksLines cf.chunks).length)
        startL bchunks bhdr bconts bmids
        (fun x hx => hwf x (by simp [hx])) hst hbch hbh hbc hbm]
      show _ = conflicts ++ (cf.record (n + (if cl.isSome then 1 else 0)) ::
        segsConflicts rest (n + (if cl.isSome then 1 else 0) + cf.lines.length))
      have hlen : cf.lines.length = (chunksLines cf.chunks).length + 2 := by
        show (cf.startL :: (chunksLines cf.chunks ++ [cf.endL])).length = _
        simp
      rw [List.append_assoc]
      simp only [List.singleton_append]
      have hbump : (if (some cf.endL).isSome = true then (1 : Nat) else 0) = 1 := rfl
      rw [hbump]
      have harith : n + (if cl.isSome then 1 else 0) + 1 +
          (chunksLines cf.chunks).length + 1 =
          n + (if cl.isSome then 1 else 0) + cf.lines.length := by
        rw [hlen]
        omega
      rw [harith]

/-- The scan of a well-formed segment list. -/
theorem find_conflicts_segs (segs : List Seg) (h : SegsWf segs) :
    find_conflicts (segLines segs) = segsConflicts segs 0 := by
  show find_conflicts_loop [] ⟨segLines segs, none, 0⟩ = _
  rw [find_loop_segs segs [] none 0 h]
  simp

/-- The scan of a well-formed segment list followed by an unterminated
conflict at the end of input. -/
theorem find_conflicts_segs_bad (segs : List Seg) (startL : String)
    (bchunks : List Chunk) (bhdr : String) (bconts bmids : List String)
    (h : SegsWf segs)
    (hst : DIFF_CONFLICT_START_REGEX startL = true)
    (hbch : ∀ ch ∈ bchunks, ch.Wf)
    (hbh : DIFF_CHANGE_HEADER_REGEX bhdr = true ∨ DIFF_CONTENTS_HEADER_REGEX bhdr = true)
    (hbc : ∀ l ∈ bconts, DIFF_CONTINUATION_REGEX l = true)
    (hbm : ∀ l ∈ bmids, is_known_pattern l = false) :
    find_conflicts (segLines segs ++ startL ::
        (chunksLines bchunks ++ bhdr :: (bconts ++ bmids))) =
      segsConflicts segs 0 := by
  show find_conflicts_loop [] ⟨segLines segs ++ _, none, 0⟩ = _
  rw [find_loop_segs_bad segs [] none 0 startL bchunks bhdr bconts bmids
    h hst hbch hbh hbc hbm]
  simp

/-! Lemmas relating the iterative content accumulation to the join
described by the spec. -/

theorem step_sep_append (c x : String) :
    (if c = "" then c else c ++ "\n") ++ x = step_contents c x := by
  by_cases h : c = ""
  · simp [h, step_contents]
  · simp [h, step_contents, String.append_assoc]

theorem foldl_step_contents_cons (ls : List String) : ∀ (a : String), a ≠ "" →
    ls.foldl step_contents a = joinNL (a :: ls) := by
  induction ls with
  | nil => intro a _; simp [joinNL]
  | cons l lt ih =>
    intro a ha
    rw [List.foldl_cons]
    rw [show step_contents a l = a ++ "\n" ++ l from by simp [step_contents, ha]]
    rw [ih (a ++ "\n" ++ l) (string_append_ne_empty_left _ _
      (string_append_ne_empty_left _ _ ha))]
    cases lt with
    | nil => simp [joinNL]
    | cons x xt => simp [joinNL, String.append_assoc]

/-- The change of the claims C2 and C8 forced by the code: the content
accumulated from an empty string is the newline join of the surviving
lines with any leading empty lines removed, because the separator is
only emitted once the accumulated content is nonempty. -/
theorem foldl_step_contents_empty (ls : List String) :
    ls.foldl step_contents "" = joinNL (ls.dropWhile (fun l => l == "")) := by
  induction ls with
  | nil => simp [joinNL]
  | cons l lt ih =>
    by_cases h : l = ""
    · subst h
      rw [List.foldl_cons]
      rw [show step_contents "" "" = "" from rfl]
      rw [ih]
      simp [List.dropWhile_cons]
    · rw [List.foldl_cons]
      rw [show step_contents "" l = l from by simp [step_contents]]
      rw [foldl_step_contents_cons lt l h]
      have : (l == "") = false := by
        simp [h]
      simp [List.dropWhile_cons, this]

theorem foldl_step_change_filterMap (mids : List String) : ∀ (c : String),
    mids.foldl step_change c = (mids.filterMap changeKeep).foldl step_contents c := by
  induction mids with
  | nil => intro c; simp
  | cons m ms ih =>
    intro c
    rw [List.foldl_cons]
    by_cases h1 : m.toList.head? = some '-'
    · rw [show step_change c m = c from by rw [step_change, if_pos h1]]
      rw [List.filterMap_cons_none (show changeKeep m = none from by
        rw [changeKeep, if_pos h1])]
      exact ih c
    · by_cases h2 : m.toList.head? = some '+'
      · rw [show step_change c m = step_contents c (String.mk m.toList.tail) from by
          rw [step_change, if_neg h1, if_pos h2, step_sep_append]]
        rw [List.filterMap_cons_some (show changeKeep m = some (String.mk m.toList.tail)
          from by rw [changeKeep, if_neg h1, if_pos h2])]
        rw [List.foldl_cons]
        exact ih _
      · rw [show step_change c m = step_contents c m from by
          rw [step_change, if_neg h1, if_neg h2, step_sep_append]]
        rw [List.filterMap_cons_some (show changeKeep m = some m from by
          rw [changeKeep, if_neg h1, if_neg h2])]
        rw [List.foldl_cons]
        exact ih _

/-- Full characterization of a change-block content. -/
theorem change_content_eq (mids : List String) :
    mids.foldl step_change "" =
      joinNL ((mids.filterMap changeKeep).dropWhile (fun l => l == "")) := by
  rw [foldl_step_change_filterMap, foldl_step_contents_empty]

/-- Every surviving line of a change block is either the suffix of a
source line starting with a plus sign, or a source line unchanged. -/
theorem changeKeep_mem (mids : List String) (x : String)
    (hx : x ∈ mids.filterMap changeKeep) :
    (∃ src ∈ mids, src.toList.head? = some '+' ∧ x = String.mk src.toList.tail) ∨
      x ∈ mids := by
  rw [List.mem_filterMap] at hx
  obtain ⟨src, hsrc, hk⟩ := hx
  rw [changeKeep] at hk
  by_cases h1 : src.toList.head? = some '-'
  · rw [if_pos h1] at hk
    exact absurd hk (by simp)
  · rw [if_neg h1] at hk
    by_cases h2 : src.toList.head? = some '+'
    · rw [if_pos h2] at hk
      injection hk with h
      exact Or.inl ⟨src, hsrc, h2, h.symm⟩
    · rw [if_neg h2] at hk
      injection hk with h
      rw [← h]
      exact Or.inr hsrc

/-! Cursor-validity invariant: every cursor reachable during a scan of
doc has its current line equal to the document line at its line
number.  Hence every produced title range designates the real document
line it came from. -/

theorem drop_cons_shift (doc : List String) (n : Nat) (l : String) (ls : List String)
    (h : doc.drop (n + 1) = l :: ls) :
    doc[n + 1]? = some l ∧ ls = doc.drop (n + 2) := by
  constructor
  · have h0 : (doc.drop (n + 1))[0]? = doc[n + 1]? := by
      rw [List.getElem?_drop]
    rw [← h0, h]
    simp
  · have h1 : List.drop 1 (List.drop (n + 1) doc) = List.drop (n + 2) doc := by
      rw [List.drop_drop]
    rw [← h1, h]
    simp

theorem inv_init (doc : List String) : Inv doc ⟨doc, none, 0⟩ :=
  Or.inl ⟨rfl, rfl⟩

theorem inv_some_elim (doc : List String) (rest : List String) (l : String) (n : Nat)
    (h : Inv doc ⟨rest, some l, n⟩) :
    doc[n]? = some l ∧ rest = doc.drop (n + 1) := h

theorem inv_some_intro (doc : List String) (rest : List String) (l : String) (n : Nat)
    (h1 : doc[n]? = some l) (h2 : rest = doc.drop (n + 1)) :
    Inv doc ⟨rest, some l, n⟩ := ⟨h1, h2⟩

theorem inv_exhausted (doc : List String) (n : Nat) : Inv doc ⟨[], none, n⟩ :=
  Or.inr rfl

theorem inv_shift (doc : List String) (rest : List String) (l : String) (n : Nat)
    (l2 : String) (ls2 : List String)
    (h : Inv doc ⟨rest, some l, n⟩) (hr : rest = l2 :: ls2) :
    Inv doc ⟨ls2, some l2, n + 1⟩ := by
  obtain ⟨hget, hrest⟩ := inv_some_elim doc rest l n h
  rw [hr] at hrest
  obtain ⟨hg2, hd2⟩ := drop_cons_shift doc n l2 ls2 hrest.symm
  exact inv_some_intro doc ls2 l2 (n + 1) hg2 hd2

theorem inv_next (doc : List String) (c : Cursor) (h : Inv doc c) :
    Inv doc (next c).2 := by
  rcases c with ⟨rest, cl, n⟩
  cases cl with
  | none =>
    rcases h with ⟨hr, hn⟩ | hr
    · subst hn
      cases rest with
      | nil => exact inv_exhausted doc 0
      | cons l ls =>
        show Inv doc ⟨ls, some l, 0⟩
        refine inv_some_intro doc ls l 0 ?_ ?_ <;> rw [← hr] <;> simp
    · subst hr
      exact inv_exhausted doc n
  | some l =>
    cases hrr : rest with
    | nil =>
      show Inv doc ⟨[], none, n + 1⟩
      exact inv_exhausted doc (n + 1)
    | cons l2 ls2 =>
      show Inv doc ⟨ls2, some l2, n + 1⟩
      exact inv_shift doc rest l n l2 ls2 h hrr

theorem inv_next_state (doc : List String) (c : Cursor) (c1 : Cursor) (ol : Option String)
    (h : Inv doc c) (hnx : next c = (ol, c1)) : Inv doc c1 := by
  have hx := inv_next doc c h
  rw [hnx] at hx
  exact hx

theorem inv_skip_go (rest : List String) : ∀ (doc : List String) (line : String) (n : Nat),
    Inv doc ⟨rest, some line, n⟩ → Inv doc (skip_go line rest n) := by
  induction rest with
  | nil =>
    intro doc line n h
    rw [skip_go.eq_def]
    by_cases hc : DIFF_CONTINUATION_REGEX line
    · rw [if_pos hc]
      exact Or.inr rfl
    · rw [if_neg hc]
      exact h
  | cons l ls ih =>
    intro doc line n h
    rw [skip_go.eq_def]
    by_cases hc : DIFF_CONTINUATION_REGEX line
    · rw [if_pos hc]
      show Inv doc (skip_go l ls (n + 1))
      apply ih
      obtain ⟨hget, hrest⟩ := h
      obtain ⟨hg2, hd2⟩ := drop_cons_shift doc n l ls hrest.symm
      exact ⟨hg2, hd2⟩
    · rw [if_neg hc]
      exact h

theorem inv_skip (doc : List String) (c : Cursor) (h : Inv doc c) :
    Inv doc (skip_continuation_lines c) := by
  rcases c with ⟨rest, cl, n⟩
  cases cl with
  | none => exact h
  | some l => exact inv_skip_go rest doc l n h

theorem inv_change_loop (rest : List String) :
    ∀ (doc : List String) (content line : String) (n : Nat),
    Inv doc ⟨rest, some line, n⟩ →
    Inv doc (change_loop content line rest n).2 := by
  induction rest with
  | nil =>
    intro doc content line n h
    rw [change_loop.eq_def]
    by_cases hk : is_known_pattern line
    · rw [if_pos hk]
      exact h
    · rw [if_neg hk]
      exact Or.inr rfl
  | cons l ls ih =>
    intro doc content line n h
    rw [change_loop.eq_def]
    by_cases hk : is_known_pattern line
    · rw [if_pos hk]
      exact h
    · rw [if_neg hk]
      show Inv doc (change_loop (step_change content line) l ls (n + 1)).2
      apply ih
      obtain ⟨hget, hrest⟩ := h
      obtain ⟨hg2, hd2⟩ := drop_cons_shift doc n l ls hrest.symm
      exact ⟨hg2, hd2⟩

theorem inv_contents_loop (rest : List String) :
    ∀ (doc : List String) (content line : String) (n : Nat),
    Inv doc ⟨rest, some line, n⟩ →
    Inv doc (contents_loop content line rest n).2 := by
  induction rest with
  | nil =>
    intro doc content line n h
    rw [contents_loop.eq_def]
    by_cases hk : is_known_pattern line
    · rw [if_pos hk]
      exact h
    · rw [if_neg hk]
      exact Or.inr rfl
  | cons l ls ih =>
    intro doc content line n h
    rw [contents_loop.eq_def]
    by_cases hk : is_known_pattern line
    · rw [if_pos hk]
      exact h
    · rw [if_neg hk]
      show Inv doc (contents_loop (step_contents content line) l ls (n + 1)).2
      apply ih
      obtain ⟨hget, hrest⟩ := h
      obtain ⟨hg2, hd2⟩ := drop_cons_shift doc n l ls hrest.symm
      exact ⟨hg2, hd2⟩

theorem good_range_of_inv (doc : List String) (c : Cursor) (r : Range)
    (h : Inv doc c) (hr : get_range_of_current_line c = some r) :
    GoodTitleRange doc r := by
  rcases c with ⟨rest, cl, n⟩
  cases cl with
  | none => simp [get_range_of_current_line] at hr
  | some l =>
    obtain ⟨hget, -⟩ := h
    simp only [get_range_of_current_line] at hr
    injection hr with hr
    subst hr
    exact ⟨rfl, rfl, l, hget, rfl⟩

theorem inv_parse_change_block (doc : List String) (c : Cursor) (ob : Option ChangeBlock)
    (c3 : Cursor) (h : Inv doc c) (heq : parse_change_block c = (ob, c3)) :
    Inv doc c3 ∧ ∀ b, ob = some b → GoodTitleRange doc b.title_range := by
  simp only [parse_change_block] at heq
  rcases hr : get_range_of_current_line c with _ | title <;> rw [hr] at heq <;>
    simp only [] at heq
  · injection heq with ha hb
    subst hb
    refine ⟨h, ?_⟩
    intro b hbb
    rw [← ha] at hbb
    exact absurd hbb (by simp)
  · have hgood := good_range_of_inv doc c title h hr
    have h1 : Inv doc (next c).2 := inv_next doc c h
    have h2 : Inv doc (skip_continuation_lines (next c).2) := inv_skip doc _ h1
    rcases hcl : (skip_continuation_lines (next c).2).cur_line with _ | line <;>
      rw [hcl] at heq <;> simp only [] at heq
    · injection heq with ha hb
      subst hb
      refine ⟨h2, ?_⟩
      intro b hbb
      rw [← ha] at hbb
      exact absurd hbb (by simp)
    · have h3 : Inv doc ⟨(skip_continuation_lines (next c).2).rest, some line,
          (skip_continuation_lines (next c).2).cur_line_number⟩ := by
        have hx : skip_continuation_lines (next c).2 =
            ⟨(skip_continuation_lines (next c).2).rest, some line,
             (skip_continuation_lines (next c).2).cur_line_number⟩ := by
          rcases hsk : skip_continuation_lines (next c).2 with ⟨a, b, d⟩
          rw [hsk] at hcl
          simp only at hcl
          rw [hcl]
        rw [← hx]
        exact h2
      have h4 := inv_change_loop (skip_continuation_lines (next c).2).rest doc "" line
        (skip_continuation_lines (next c).2).cur_line_number h3
      rcases hres : change_loop "" line (skip_continuation_lines (next c).2).rest
        (skip_continuation_lines (next c).2).cur_line_number with ⟨ores, cc⟩
      rw [hres] at heq h4
      cases ores with
      | none =>
        injection heq with ha hb
        subst hb
        refine ⟨h4, ?_⟩
        intro b hbb
        rw [← ha] at hbb
        exact absurd hbb (by simp)
      | some content =>
        injection heq with ha hb
        subst hb
        refine ⟨h4, ?_⟩
        intro b hbb
        rw [← ha] at hbb
        injection hbb with hbb
        rw [← hbb]
        exact hgood

theorem inv_parse_contents_block (doc : List String) (c : Cursor) (ob : Option ChangeBlock)
    (c3 : Cursor) (h : Inv doc c) (heq : parse_contents_block c = (ob, c3)) :
    Inv doc c3 ∧ ∀ b, ob = some b → GoodTitleRange doc b.title_range := by
  simp only [parse_contents_block] at heq
  rcases hr : get_range_of_current_line c with _ | title <;> rw [hr] at heq <;>
    simp only [] at heq
  · injection heq with ha hb
    subst hb
    refine ⟨h, ?_⟩
    intro b hbb
    rw [← ha] at hbb
    exact absurd hbb (by simp)
  · have hgood := good_range_of_inv doc c title h hr
    rcases hnx : next c with ⟨onx, c1⟩
    rw [hnx] at heq
    have h1 : Inv doc c1 := inv_next_state doc c c1 onx h hnx
    cases onx with
    | none =>
      injection heq with ha hb
      subst hb
      refine ⟨h1, ?_⟩
      intro b hbb
      rw [← ha] at hbb
      exact absurd hbb (by simp)
    | some lx =>
      simp only [] at heq
      have h2 : Inv doc (skip_continuation_lines c1) := inv_skip doc _ h1
      rcases hcl : (skip_continuation_lines c1).cur_line with _ | line <;>
        rw [hcl] at heq <;> simp only [] at heq
      · injection heq with ha hb
        subst hb
        refine ⟨h2, ?_⟩
        intro b hbb
        rw [← ha] at hbb
        exact absurd hbb (by simp)
      · have h3 : Inv doc ⟨(skip_continuation_lines c1).rest, some line,
            (skip_continuation_lines c1).cur_line_number⟩ := by
          have hx : skip_continuation_lines c1 =
              ⟨(skip_continuation_lines c1).rest, some line,
               (skip_continuation_lines c1).cur_line_number⟩ := by
            rcases hsk : skip_continuation_lines c1 with ⟨a, b, d⟩
            rw [hsk] at hcl
            simp only at hcl
            rw [hcl]
          rw [← hx]
          exact h2
        have h4 := inv_contents_loop (skip_continuation_lines c1).rest doc "" line
          (skip_continuation_lines c1).cur_line_number h3
        rcases hres : contents_loop "" line (skip_continuation_lines c1).rest
          (skip_continuation_lines c1).cur_line_number with ⟨ores, cc⟩
        rw [hres] at heq h4
        cases ores with
        | none =>
          injection heq with ha hb
          subst hb
          refine ⟨h4, ?_⟩
          intro b hbb
          rw [← ha] at hbb
          exact absurd hbb (by simp)
        | some content =>
          injection heq with ha hb
          subst hb
          refine ⟨h4, ?_⟩
          intro b hbb
          rw [← ha] at hbb
          injection hbb with hbb
          rw [← hbb]
          exact hgood

theorem inv_parse_blocks_go (doc : List String) : ∀ (f : Nat) (acc : List ChangeBlock)
    (c : Cursor) (ob : Option (List ChangeBlock)) (c2 : Cursor),
    Inv doc c →
    (∀ b ∈ acc, GoodTitleRange doc b.title_range) →
    parse_blocks_go f acc c = (ob, c2) →
    Inv doc c2 ∧ ∀ blocks, ob = some blocks →
      ∀ b ∈ blocks, GoodTitleRange doc b.title_range := by
  intro f
  induction f with
  | zero =>
    intro acc c ob c2 hc hacc heq
    rw [parse_blocks_go] at heq
    injection heq with ha hb
    subst hb
    refine ⟨hc, ?_⟩
    intro blocks hbl b hb
    rw [← ha] at hbl
    injection hbl with hbl
    rw [← hbl] at hb
    exact hacc b hb
  | succ f ih =>
    intro acc c ob c2 hc hacc heq
    rw [parse_blocks_go] at heq
    rcases hcl : c.cur_line with _ | cur_line <;> rw [hcl] at heq <;>
      simp only [] at heq
    · injection heq with ha hb
      subst hb
      refine ⟨hc, ?_⟩
      intro blocks hbl b hb
      rw [← ha] at hbl
      injection hbl with hbl
      rw [← hbl] at hb
      exact hacc b hb
    · by_cases hch : DIFF_CHANGE_HEADER_REGEX cur_line
      · rw [if_pos hch] at heq
        rcases hp : parse_change_block c with ⟨obb, c1⟩
        rw [hp] at heq
        obtain ⟨hi1, hg1⟩ := inv_parse_change_block doc c obb c1 hc hp
        cases obb with
        | none =>
          injection heq with ha hb
          subst hb
          refine ⟨hi1, ?_⟩
          intro blocks hbl
          rw [← ha] at hbl
          exact absurd hbl (by simp)
        | some block =>
          refine ih (acc ++ [block]) c1 ob c2 hi1 ?_ heq
          intro b hb
          rcases List.mem_append.mp hb with hb | hb
          · exact hacc b hb
          · rw [List.mem_singleton.mp hb]
            exact hg1 block rfl
      · rw [if_neg hch] at heq
        by_cases hco : DIFF_CONTENTS_HEADER_REGEX cur_line
        · rw [if_pos hco] at heq
          rcases hp : parse_contents_block c with ⟨obb, c1⟩
          rw [hp] at heq
          obtain ⟨hi1, hg1⟩ := inv_parse_contents_block doc c obb c1 hc hp
          cases obb with
          | none =>
            injection heq with ha hb
            subst hb
            refine ⟨hi1, ?_⟩
            intro blocks hbl
            rw [← ha] at hbl
            exact absurd hbl (by simp)
          | some block =>
            refine ih (acc ++ [block]) c1 ob c2 hi1 ?_ heq
            intro b hb
            rcases List.mem_append.mp hb with hb | hb
            · exact hacc b hb
            · rw [List.mem_singleton.mp hb]
              exact hg1 block rfl
        · rw [if_neg hco] at heq
          injection heq with ha hb
          subst hb
          refine ⟨hc, ?_⟩
          intro blocks hbl b hb
          rw [← ha] at hbl
          injection hbl with hbl
          rw [← hbl] at hb
          exact hacc b hb

/-- Everything parse_diff_marker produces has good title ranges, on
the conflict itself and on each of its blocks, and the cursor stays
valid. -/
theorem inv_parse_diff_marker (doc : List String) (c : Cursor) (oc : Option Conflict)
    (c2 : Cursor) (h : Inv doc c) (heq : parse_diff_marker c = (oc, c2)) :
    Inv doc c2 ∧ ∀ conf, oc = some conf →
      GoodTitleRange doc conf.title_range ∧
        ∀ b ∈ conf.blocks, GoodTitleRange doc b.title_range := by
  simp only [parse_diff_marker] at heq
  rcases hr : get_range_of_current_line c with _ | title <;> rw [hr] at heq <;>
    simp only [] at heq
  · injection heq with ha hb
    subst hb
    refine ⟨h, ?_⟩
    intro conf hcf
    rw [← ha] at hcf
    exact absurd hcf (by simp)
  · have hgood := good_range_of_inv doc c title h hr
    have h1 : Inv doc (next c).2 := inv_next doc c h
    rcases hp : parse_blocks_loop [] (next c).2 with ⟨ob, c3⟩
    rw [hp] at heq
    have hp2 : parse_blocks_go (cursorMeasure (next c).2 + 1) [] (next c).2 = (ob, c3) := by
      rw [← parse_blocks_loop]
      exact hp
    obtain ⟨hi3, hg3⟩ := inv_parse_blocks_go doc (cursorMeasure (next c).2 + 1) []
      (next c).2 ob c3 h1 (by intro b hb; simp at hb) hp2
    cases ob with
    | none =>
      injection heq with ha hb
      subst hb
      refine ⟨hi3, ?_⟩
      intro conf hcf
      rw [← ha] at hcf
      exact absurd hcf (by simp)
    | some blocks =>
      simp only [] at heq
      rcases hcl : c3.cur_line with _ | cur_line <;> rw [hcl] at heq <;>
        simp only [] at heq
      · injection heq with ha hb
        subst hb
        refine ⟨hi3, ?_⟩
        intro conf hcf
        rw [← ha] at hcf
        exact absurd hcf (by simp)
      · injection heq with ha hb
        subst hb
        refine ⟨hi3, ?_⟩
        intro conf hcf
        rw [← ha] at hcf
        injection hcf with hcf
        rw [← hcf]
        exact ⟨hgood, hg3 blocks rfl⟩

/-- Structural fact behind claim C10: any conflict returned by
parse_diff_marker has its range starting at its title range start. -/
theorem parse_diff_marker_range_start (c : Cursor) (conf : Conflict) (c2 : Cursor)
    (h : parse_diff_marker c = (some conf, c2)) :
    conf.range.start = conf.title_range.start := by
  simp only [parse_diff_marker] at h
  rcases hr : get_range_of_current_line c with _ | title <;> rw [hr] at h <;>
    simp only [] at h
  · injection h with ha hb
    exact absurd ha.symm (by simp)
  · rcases hp : parse_blocks_loop [] (next c).2 with ⟨ob, c3⟩
    rw [hp] at h
    cases ob with
    | none =>
      injection h with ha hb
      exact absurd ha.symm (by simp)
    | some blocks =>
      simp only [] at h
      rcases hcl : c3.cur_line with _ | cur_line <;> rw [hcl] at h <;>
        simp only [] at h
      · injection h with ha hb
        exact absurd ha.symm (by simp)
      · injection h with ha hb
        injection ha with ha
        rw [← ha]

/-- Generic preservation through the scan loop: any property
guaranteed by parse_diff_marker on valid cursors holds for every
record in the result. -/
theorem find_conflicts_go_pres (P : Conflict → Prop) (doc : List String)
    (H : ∀ c conf c2, Inv doc c → parse_diff_marker c = (some conf, c2) → P conf) :
    ∀ (f : Nat) (acc : List Conflict) (c : Cursor), Inv doc c →
    (∀ x ∈ acc, P x) →
    ∀ x ∈ find_conflicts_go f acc c, P x := by
  intro f
  induction f with
  | zero =>
    intro acc c _ hacc x hx
    exact hacc x hx
  | succ f ih =>
    intro acc c hc hacc x hx
    rw [find_conflicts_go] at hx
    rcases hnx : next c with ⟨ol, c1⟩
    rw [hnx] at hx
    have h1 : Inv doc c1 := inv_next_state doc c c1 ol hc hnx
    cases ol with
    | none => exact hacc x hx
    | some line =>
      simp only [] at hx
      by_cases hst : DIFF_CONFLICT_START_REGEX line
      · rw [if_pos hst] at hx
        rcases hp : parse_diff_marker c1 with ⟨oc, c2⟩
        rw [hp] at hx
        obtain ⟨h2, -⟩ := inv_parse_diff_marker doc c1 oc c2 h1 hp
        cases oc with
        | none => exact ih acc c2 h2 hacc x hx
        | some conf =>
          refine ih (acc ++ [conf]) c2 h2 ?_ x hx
          intro y hy
          rcases List.mem_append.mp hy with hy | hy
          · exact hacc y hy
          · rw [List.mem_singleton.mp hy]
            exact H c1 conf c2 h1 hp
      · rw [if_neg hst] at hx
        exact ih acc c1 h1 hacc x hx

/-- Preservation instantiated at the top-level scan. -/
theorem find_conflicts_pres (P : Conflict → Prop) (doc : List String)
    (H : ∀ c conf c2, Inv doc c → parse_diff_marker c = (some conf, c2) → P conf) :
    ∀ x ∈ find_conflicts doc, P x := by
  intro x hx
  exact find_conflicts_go_pres P doc H (cursorMeasure ⟨doc, none, 0⟩ + 1) [] ⟨doc, none, 0⟩
    (inv_init doc) (by intro y hy; simp at hy) x hx

/-! Constructive matching lemmas for the conflict-start classifier. -/

theorem countLeading_replicate (ch : Char) (k : Nat) : ∀ (rest : List Char),
    rest.head? ≠ some ch →
    countLeading ch (List.replicate k ch ++ rest) = k := by
  induction k with
  | zero =>
    intro rest h
    cases rest with
    | nil => simp [countLeading]
    | cons c cs =>
      have hc : ¬ c = ch := by
        intro hcc
        exact h (by simp [hcc])
      simp [countLeading, hc]
  | succ k ih =>
    intro rest h
    simp only [List.replicate_succ, List.cons_append]
    simp [countLeading, ih rest h]

theorem dropLit_refl (lit : List Char) : ∀ (r : List Char),
    dropLit lit (lit ++ r) = some r := by
  induction lit with
  | nil => intro r; simp [dropLit]
  | cons c cs ih => intro r; simp [dropLit, ih]

theorem dropDigitsRest_append (ds : List Char) : ∀ (r : List Char),
    (∀ c ∈ ds, c.isDigit = true) →
    (∀ x, r.head? = some x → x.isDigit = false) →
    dropDigitsRest (ds ++ r) = r := by
  induction ds with
  | nil =>
    intro r _ hr
    cases r with
    | nil => simp [dropDigitsRest]
    | cons x xs =>
      have hx : x.isDigit = false := hr x (by simp)
      simp [dropDigitsRest, hx]
  | cons d dt ih =>
    intro r hd hr
    have hdd : d.isDigit = true := hd d (by simp)
    simp only [List.cons_append]
    simp [dropDigitsRest, hdd, ih r (fun c hc => hd c (by simp [hc])) hr]

theorem dropDigits1_append (ds : List Char) (r : List Char) (hne : ds ≠ [])
    (hd : ∀ c ∈ ds, c.isDigit = true)
    (hr : ∀ x, r.head? = some x → x.isDigit = false) :
    dropDigits1 (ds ++ r) = some r := by
  cases ds with
  | nil => exact absurd rfl hne
  | cons d dt =>
    have hdd : d.isDigit = true := hd d (by simp)
    simp only [List.cons_append]
    simp [dropDigits1, hdd,
      dropDigitsRest_append dt r (fun c hc => hd c (by simp [hc])) hr]

theorem conflict_start_of_shape (k : Nat) (c0 : Char) (N M : List Char)
    (hk : 7 ≤ k) (hc : c0 = 'C' ∨ c0 = 'c')
    (hN1 : N ≠ []) (hN2 : ∀ c ∈ N, c.isDigit = true)
    (hM1 : M ≠ []) (hM2 : ∀ c ∈ M, c.isDigit = true) :
    DIFF_CONFLICT_START_REGEX (String.mk (List.replicate k '<' ++
      (' ' :: c0 :: ("onflict ".toList ++ (N ++ (" of ".toList ++ M)))))) = true := by
  rw [DIFF_CONFLICT_START_REGEX]
  have htl : (String.mk (List.replicate k '<' ++
      (' ' :: c0 :: ("onflict ".toList ++ (N ++ (" of ".toList ++ M)))))).toList =
      List.replicate k '<' ++
        (' ' :: c0 :: ("onflict ".toList ++ (N ++ (" of ".toList ++ M)))) := rfl
  rw [htl]
  have hcount : countLeading '<' (List.replicate k '<' ++
      (' ' :: c0 :: ("onflict ".toList ++ (N ++ (" of ".toList ++ M))))) = k :=
    countLeading_replicate '<' k _ (by simp)
  rw [hcount]
  have hdrop : (List.replicate k '<' ++
      (' ' :: c0 :: ("onflict ".toList ++ (N ++ (" of ".toList ++ M))))).drop k =
      ' ' :: c0 :: ("onflict ".toList ++ (N ++ (" of ".toList ++ M))) := by
    exact List.drop_left' (by simp)
  rw [hdrop]
  rw [conflictStartTail]
  rw [dropLit_refl "onflict ".toList (N ++ (" of ".toList ++ M))]
  simp only []
  rw [dropDigits1_append N (" of ".toList ++ M) hN1 hN2
    (by intro x hx; simp at hx; rw [← hx]; decide)]
  simp only []
  rw [dropLit_refl " of ".toList M]
  simp only []
  have hM : M ++ ([] : List Char) = M := by simp
  rw [show dropDigits1 M = some [] from by
    rw [← hM]
    exact dropDigits1_append M [] hM1 hM2 (by intro x hx; simp at hx)]
  rcases hc with hc | hc <;> subst hc <;> simp [hk]

theorem segsConflicts_length (segs : List Seg) : ∀ (n : Nat),
    (segsConflicts segs n).length = segsCount segs := by
  induction segs with
  | nil => intro n; rfl
  | cons s rest ih =>
    intro n
    cases s with
    | inl l => simp [segsConflicts, segsCount, ih]
    | inr cf => simp [segsConflicts, segsCount, ih]

theorem segLines_map_inl (lines : List String) :
    segLines (lines.map Sum.inl) = lines := by
  induction lines with
  | nil => rfl
  | cons l ls ih => simp [segLines, ih]

theorem segsConflicts_map_inl (lines : List String) : ∀ (n : Nat),
    segsConflicts (lines.map Sum.inl) n = [] := by
  induction lines with
  | nil => intro n; rfl
  | cons l ls ih => intro n; simp [segsConflicts, ih]

/-! The claims. -/

/-- Claim C1, counterexample: on an input of exactly the claimed shape
— a ConflictStart line, one complete ContentsHeader block body, then a
second unrelated ConflictStart line and no ConflictEnd — find_conflicts
emits no Conflict record at all, not one.  The second start marker is
not a known pattern, so the contents block consumes it as content and
then fails at the end of input, dropping the whole conflict. -/
theorem C1_counterexample :
    DIFF_CONFLICT_START_REGEX "<<<<<<< Conflict 1 of 2" = true ∧
    DIFF_CONTENTS_HEADER_REGEX "+++++++ Contents of side #1" = true ∧
    is_known_pattern "hello" = false ∧
    DIFF_CONFLICT_START_REGEX "<<<<<<< Conflict 2 of 2" = true ∧
    find_conflicts ["<<<<<<< Conflict 1 of 2", "+++++++ Contents of side #1",
      "hello", "<<<<<<< Conflict 2 of 2"] = [] := by
  decide

/-- Claim C1 as amended: for every input consisting of a ConflictStart
line, a ContentsHeader line, any content lines matching no known
pattern, and a second ConflictStart line, find_conflicts emits no
Conflict record: a ConflictStart line is not a block terminator, so
the contents block swallows the second marker and the conflict is
dropped when input ends without a known-pattern line. -/
theorem C1_amended (s1 h : String) (mids : List String) (s2 : String)
    (h1 : DIFF_CONFLICT_START_REGEX s1 = true)
    (h2 : DIFF_CONTENTS_HEADER_REGEX h = true)
    (h3 : ∀ l ∈ mids, is_known_pattern l = false)
    (h4 : DIFF_CONFLICT_START_REGEX s2 = true) :
    find_conflicts (s1 :: h :: (mids ++ [s2])) = [] := by
  have hbad := find_conflicts_segs_bad [] s1 [] h [] (mids ++ [s2])
    (by intro s hs; simp at hs) h1 (by intro ch hch; simp at hch)
    (Or.inr h2) (by intro l hl; simp at hl)
    (by intro l hl
        rcases List.mem_append.mp hl with hl | hl
        · exact h3 l hl
        · rw [List.mem_singleton.mp hl]
          exact conflict_start_not_known s2 h4)
  simpa [segLines, chunksLines, segsConflicts] using hbad

/-- Witness for the amended claim C1 at a concrete input. -/
theorem C1_amended_witness :
    find_conflicts ["<<<<<<< Conflict 1 of 2", "+++++++ Contents of side #1",
      "hello", "<<<<<<< Conflict 2 of 2"] = [] := by
  have h := C1_amended "<<<<<<< Conflict 1 of 2" "+++++++ Contents of side #1"
    ["hello"] "<<<<<<< Conflict 2 of 2" (by decide) (by decide) (by decide) (by decide)
  simpa using h

/-- Claim C2, counterexample: in a change block whose surviving lines
are an empty line followed by the line x, the code produces content x,
not the newline join of the two surviving lines: while the accumulated
content is still empty no separator is emitted, so leading empty
surviving lines are collapsed. -/
theorem C2_counterexample :
    (parse_change_block ⟨["", "x", ">>>>>>> Conflict 1 of 2 ends"],
        some "%%%%%%% Changes from base to side #1", 0⟩).1 =
      some ⟨rangeOfLine 0 "%%%%%%% Changes from base to side #1", "x"⟩ ∧
    ["", "x"].filterMap changeKeep = ["", "x"] ∧
    joinNL ["", "x"] = "\nx" ∧ ("x" : String) ≠ "\nx" := by
  decide

/-- Claim C2 as amended: for every change block, a line starting with
a minus sign contributes nothing, a line starting with a plus sign
contributes its suffix, any other line contributes itself verbatim,
order is preserved, and the surviving lines are joined by single
newlines except that surviving empty lines at the start of the block
are collapsed (no separator is emitted while the accumulated content
is still empty). -/
theorem C2_amended (hdr : String) (conts mids : List String) (term : String)
    (r : List String) (n : Nat)
    (hconts : ∀ l ∈ conts, DIFF_CONTINUATION_REGEX l = true)
    (hmids : ∀ l ∈ mids, is_known_pattern l = false)
    (hterm : is_known_pattern term = true)
    (htermc : DIFF_CONTINUATION_REGEX term = false) :
    parse_change_block ⟨conts ++ mids ++ term :: r, some hdr, n⟩ =
      (some ⟨rangeOfLine n hdr,
        joinNL ((mids.filterMap changeKeep).dropWhile (fun l => l == ""))⟩,
       ⟨r, some term, n + 1 + conts.length + mids.length⟩) := by
  rw [parse_change_block_run hdr conts mids term r n hconts hmids hterm htermc,
    change_content_eq]

/-- Witness for the amended claim C2 at a concrete block. -/
theorem C2_amended_witness :
    parse_change_block ⟨["-dead", "+kept", "plain", ">>>>>>> Conflict 1 of 2 ends"],
        some "%%%%%%% Changes from base to side #1", 0⟩ =
      (some ⟨rangeOfLine 0 "%%%%%%% Changes from base to side #1", "kept\nplain"⟩,
       ⟨[], some ">>>>>>> Conflict 1 of 2 ends", 4⟩) := by
  have h := C2_amended "%%%%%%% Changes from base to side #1" []
    ["-dead", "+kept", "plain"] ">>>>>>> Conflict 1 of 2 ends" [] 0
    (by decide) (by decide) (by decide) (by decide)
  exact h.trans (by decide)

/-- Claim C3: the scan of any document made of well-formed, fully
closed conflicts separated by filler lines returns exactly the records
of those conflicts in document order, and an input with no marker
lines yields the empty sequence. -/
theorem C3_well_formed_scan :
    (∀ segs : List Seg, SegsWf segs →
      find_conflicts (segLines segs) = segsConflicts segs 0 ∧
      (find_conflicts (segLines segs)).length = segsCount segs) ∧
    (∀ lines : List String, (∀ l ∈ lines, noMarker l) → find_conflicts lines = []) := by
  constructor
  · intro segs h
    have h1 := find_conflicts_segs segs h
    exact ⟨h1, by rw [h1, segsConflicts_length]⟩
  · intro lines h
    have hw : SegsWf (lines.map Sum.inl) := by
      intro s hs
      rw [List.mem_map] at hs
      obtain ⟨l, hl, rfl⟩ := hs
      exact (h l hl).1
    have h2 := find_conflicts_segs (lines.map Sum.inl) hw
    rw [segLines_map_inl] at h2
    rw [h2, segsConflicts_map_inl]

/-- Witness for claim C3 at a concrete two-conflict document and a
concrete marker-free document. -/
theorem C3_witness :
    find_conflicts (segLines [Sum.inl "intro",
      Sum.inr ⟨"<<<<<<< Conflict 1 of 2",
        [⟨"+++++++ Contents of side #1", [], ["hello"]⟩],
        ">>>>>>> Conflict 1 of 2 ends"⟩,
      Sum.inr ⟨"<<<<<<< Conflict 2 of 2",
        [⟨"%%%%%%% Changes from base to side #1", [], ["+added"]⟩],
        ">>>>>>> Conflict 2 of 2 ends"⟩]) =
      segsConflicts [Sum.inl "intro",
        Sum.inr ⟨"<<<<<<< Conflict 1 of 2",
          [⟨"+++++++ Contents of side #1", [], ["hello"]⟩],
          ">>>>>>> Conflict 1 of 2 ends"⟩,
        Sum.inr ⟨"<<<<<<< Conflict 2 of 2",
          [⟨"%%%%%%% Changes from base to side #1", [], ["+added"]⟩],
          ">>>>>>> Conflict 2 of 2 ends"⟩] 0 ∧
    (find_conflicts (segLines [Sum.inl "intro",
      Sum.inr ⟨"<<<<<<< Conflict 1 of 2",
        [⟨"+++++++ Contents of side #1", [], ["hello"]⟩],
        ">>>>>>> Conflict 1 of 2 ends"⟩,
      Sum.inr ⟨"<<<<<<< Conflict 2 of 2",
        [⟨"%%%%%%% Changes from base to side #1", [], ["+added"]⟩],
        ">>>>>>> Conflict 2 of 2 ends"⟩])).length = 2 ∧
    find_conflicts ["just", "plain", "text"] = [] := by
  have hwf : SegsWf [Sum.inl "intro",
      Sum.inr ⟨"<<<<<<< Conflict 1 of 2",
        [⟨"+++++++ Contents of side #1", [], ["hello"]⟩],
        ">>>>>>> Conflict 1 of 2 ends"⟩,
      Sum.inr ⟨"<<<<<<< Conflict 2 of 2",
        [⟨"%%%%%%% Changes from base to side #1", [], ["+added"]⟩],
        ">>>>>>> Conflict 2 of 2 ends"⟩] := by
    intro s hs
    simp only [List.mem_cons, List.mem_singleton] at hs
    rcases hs with rfl | rfl | rfl | h
    · decide
    · exact ⟨by decide, by
        intro ch hch
        rw [List.mem_singleton] at hch
        subst hch
        exact ⟨Or.inr (by decide), by decide, by decide⟩, by decide⟩
    · exact ⟨by decide, by
        intro ch hch
        rw [List.mem_singleton] at hch
        subst hch
        exact ⟨Or.inl (by decide), by decide, by decide⟩, by decide⟩
    · simp at h
  obtain ⟨h1, h2⟩ := C3_well_formed_scan.1 _ hwf
  refine ⟨h1, by rw [h2]; decide, ?_⟩
  exact C3_well_formed_scan.2 ["just", "plain", "text"]
    (by intro l hl
        simp only [List.mem_cons, List.mem_singleton] at hl
        rcases hl with rfl | rfl | rfl | h
        · exact ⟨by decide, by decide⟩
        · exact ⟨by decide, by decide⟩
        · exact ⟨by decide, by decide⟩
        · simp at h)

/-- Claim C4: if the input ends while a change or contents block is
accumulating content, that conflict produces no record while the scan
still returns normally with the records of all preceding well-formed
conflicts; in particular a ConflictStart followed by a ChangeHeader
block whose content never reaches a known-pattern line yields zero
conflicts.  The function is total, so no error is raised. -/
theorem C4_incomplete_block :
    (∀ (segs : List Seg) (startL : String) (bchunks : List Chunk) (bhdr : String)
      (bconts bmids : List String),
      SegsWf segs →
      DIFF_CONFLICT_START_REGEX startL = true →
      (∀ ch ∈ bchunks, ch.Wf) →
      (DIFF_CHANGE_HEADER_REGEX bhdr = true ∨ DIFF_CONTENTS_HEADER_REGEX bhdr = true) →
      (∀ l ∈ bconts, DIFF_CONTINUATION_REGEX l = true) →
      (∀ l ∈ bmids, is_known_pattern l = false) →
      find_conflicts (segLines segs ++ startL ::
        (chunksLines bchunks ++ bhdr :: (bconts ++ bmids))) = segsConflicts segs 0) ∧
    (∀ (startL hdr : String) (mids : List String),
      DIFF_CONFLICT_START_REGEX startL = true →
      DIFF_CHANGE_HEADER_REGEX hdr = true →
      (∀ l ∈ mids, is_known_pattern l = false) →
      find_conflicts (startL :: hdr :: mids) = []) := by
  constructor
  · intro segs startL bchunks bhdr bconts bmids h1 h2 h3 h4 h5 h6
    exact find_conflicts_segs_bad segs startL bchunks bhdr bconts bmids h1 h2 h3 h4 h5 h6
  · intro startL hdr mids h1 h2 h3
    have hbad := find_conflicts_segs_bad [] startL [] hdr [] mids
      (by intro s hs; simp at hs) h1 (by intro ch hch; simp at hch)
      (Or.inl h2) (by intro l hl; simp at hl) h3
    simpa [segLines, chunksLines, segsConflicts] using hbad

/-- Witness for claim C4: one complete conflict followed by an
unterminated one still yields exactly the first record, and the
ConflictStart plus ChangeHeader tail alone yields zero conflicts. -/
theorem C4_witness :
    find_conflicts (segLines [Sum.inr ⟨"<<<<<<< Conflict 1 of 2",
        [⟨"+++++++ Contents of side #1", [], ["hello"]⟩],
        ">>>>>>> Conflict 1 of 2 ends"⟩] ++ "<<<<<<< Conflict 2 of 2" ::
        (chunksLines [] ++ "%%%%%%% Changes from base to side #1" ::
          (([] : List String) ++ ["no end here"]))) =
      segsConflicts [Sum.inr ⟨"<<<<<<< Conflict 1 of 2",
        [⟨"+++++++ Contents of side #1", [], ["hello"]⟩],
        ">>>>>>> Conflict 1 of 2 ends"⟩] 0 ∧
    find_conflicts ["<<<<<<< Conflict 1 of 2",
      "%%%%%%% Changes from base to side #1", "no end here"] = [] := by
  constructor
  · refine C4_incomplete_block.1 [Sum.inr ⟨"<<<<<<< Conflict 1 of 2",
      [⟨"+++++++ Contents of side #1", [], ["hello"]⟩],
      ">>>>>>> Conflict 1 of 2 ends"⟩] "<<<<<<< Conflict 2 of 2" []
      "%%%%%%% Changes from base to side #1" [] ["no end here"] ?_ (by decide)
      (by intro ch hch; simp at hch) (Or.inl (by decide))
      (by intro l hl; simp at hl) (by decide)
    intro s hs
    rw [List.mem_singleton] at hs
    subst hs
    exact ⟨by decide, by
      intro ch hch
      rw [List.mem_singleton] at hch
      subst hch
      exact ⟨Or.inr (by decide), by decide, by decide⟩, by decide⟩
  · exact C4_incomplete_block.2 "<<<<<<< Conflict 1 of 2"
      "%%%%%%% Changes from base to side #1" ["no end here"]
      (by decide) (by decide) (by decide)

/-- Claim C5, counterexample: a change-block source line consisting of
a plus sign, seven backslashes, a space and text is not a known
pattern, so it survives with its plus sign stripped, and the produced
content is then exactly a line matching the Continuation pattern. -/
theorem C5_counterexample :
    find_conflicts ["<<<<<<< Conflict 1 of 2", "%%%%%%% Changes from base to side #1",
      "+\\\\\\\\\\\\\\ x", ">>>>>>> Conflict 1 of 2 ends"] =
      [⟨⟨⟨0, 0⟩, ⟨3, 28⟩⟩, rangeOfLine 0 "<<<<<<< Conflict 1 of 2",
        [⟨rangeOfLine 1 "%%%%%%% Changes from base to side #1",
          "\\\\\\\\\\\\\\ x"⟩]⟩] ∧
    DIFF_CONTINUATION_REGEX "\\\\\\\\\\\\\\ x" = true := by
  decide

/-- Claim C5 as amended: no line matching the Continuation pattern
appears in any produced content except one obtained by stripping the
leading plus sign of a change-block source line; the content of a
block depends only on its content lines, so the continuation lines
following the header are consumed and contribute nothing. -/
theorem C5_amended (hdr : String) (conts mids : List String) (term : String)
    (r : List String) (n : Nat)
    (hconts : ∀ l ∈ conts, DIFF_CONTINUATION_REGEX l = true)
    (hmids : ∀ l ∈ mids, is_known_pattern l = false)
    (hterm : is_known_pattern term = true)
    (htermc : DIFF_CONTINUATION_REGEX term = false) :
    (parse_change_block ⟨conts ++ mids ++ term :: r, some hdr, n⟩ =
      (some ⟨rangeOfLine n hdr,
        joinNL ((mids.filterMap changeKeep).dropWhile (fun l => l == ""))⟩,
       ⟨r, some term, n + 1 + conts.length + mids.length⟩) ∧
     ∀ l ∈ (mids.filterMap changeKeep).dropWhile (fun l => l == ""),
       DIFF_CONTINUATION_REGEX l = false ∨
         ∃ src ∈ mids, src.toList.head? = some '+' ∧ l = String.mk src.toList.tail) ∧
    (parse_contents_block ⟨conts ++ mids ++ term :: r, some hdr, n⟩ =
      (some ⟨rangeOfLine n hdr, joinNL (mids.dropWhile (fun l => l == ""))⟩,
       ⟨r, some term, n + 1 + conts.length + mids.length⟩) ∧
     ∀ l ∈ mids.dropWhile (fun l => l == ""), DIFF_CONTINUATION_REGEX l = false) := by
  refine ⟨⟨?_, ?_⟩, ?_, ?_⟩
  · rw [parse_change_block_run hdr conts mids term r n hconts hmids hterm htermc,
      change_content_eq]
  · intro l hl
    have hl2 : l ∈ mids.filterMap changeKeep :=
      List.Sublist.mem hl (List.dropWhile_sublist _)
    rcases changeKeep_mem mids l hl2 with h | h
    · exact Or.inr h
    · exact Or.inl (not_known_not_continuation l (hmids l h))
  · rw [parse_contents_block_run hdr conts mids term r n hconts hmids hterm htermc,
      foldl_step_contents_empty]
  · intro l hl
    have hl2 : l ∈ mids := List.Sublist.mem hl (List.dropWhile_sublist _)
    exact not_known_not_continuation l (hmids l hl2)

/-- Witness for the amended claim C5: a block with a continuation line
after the header and a plus-stripped continuation-shaped line. -/
theorem C5_amended_witness :
    parse_change_block ⟨["\\\\\\\\\\\\\\ to: x", "+kept",
        ">>>>>>> Conflict 1 of 2 ends"],
        some "%%%%%%% Changes from base to side #1", 0⟩ =
      (some ⟨rangeOfLine 0 "%%%%%%% Changes from base to side #1", "kept"⟩,
       ⟨[], some ">>>>>>> Conflict 1 of 2 ends", 3⟩) ∧
    DIFF_CONTINUATION_REGEX "kept" = false := by
  have h := C5_amended "%%%%%%% Changes from base to side #1"
    ["\\\\\\\\\\\\\\ to: x"] ["+kept"] ">>>>>>> Conflict 1 of 2 ends" [] 0
    (by decide) (by decide) (by decide) (by decide)
  exact ⟨h.1.1.trans (by decide), by decide⟩

/-- Claim C6: every title range, of a conflict or of one of its
blocks, is a single-line range from character 0 to the UTF-16 length
of the document line it designates; the UTF-16 length function counts
a codepoint outside the Basic Multilingual Plane as 2 units and any
other as 1. -/
theorem C6_title_ranges :
    (∀ (doc : List String), ∀ conf ∈ find_conflicts doc,
      GoodTitleRange doc conf.title_range ∧
        ∀ b ∈ conf.blocks, GoodTitleRange doc b.title_range) ∧
    (∀ c : Char, c.toNat < 65536 → get_utf16_len (String.mk [c]) = 1) ∧
    (∀ c : Char, ¬ c.toNat < 65536 → get_utf16_len (String.mk [c]) = 2) := by
  refine ⟨?_, ?_, ?_⟩
  · intro doc
    exact find_conflicts_pres _ doc (fun c conf c2 hinv hp =>
      (inv_parse_diff_marker doc c (some conf) c2 hinv hp).2 conf rfl)
  · intro c h
    simp [get_utf16_len, utf16LenList, h]
  · intro c h
    simp [get_utf16_len, utf16LenList, h]

/-- Witness for claim C6 at a concrete document with a character
outside the Basic Multilingual Plane, and at concrete characters. -/
theorem C6_witness :
    (GoodTitleRange ["<<<<<<< Conflict 1 of 2", "+++++++ Contents of side #1",
        "hello", ">>>>>>> Conflict 1 of 2 ends"]
      (⟨⟨⟨0, 0⟩, ⟨3, 28⟩⟩, rangeOfLine 0 "<<<<<<< Conflict 1 of 2",
        [⟨rangeOfLine 1 "+++++++ Contents of side #1", "hello"⟩]⟩ : Conflict).title_range ∧
      ∀ b ∈ (⟨⟨⟨0, 0⟩, ⟨3, 28⟩⟩, rangeOfLine 0 "<<<<<<< Conflict 1 of 2",
        [⟨rangeOfLine 1 "+++++++ Contents of side #1", "hello"⟩]⟩ : Conflict).blocks,
        GoodTitleRange ["<<<<<<< Conflict 1 of 2", "+++++++ Contents of side #1",
          "hello", ">>>>>>> Conflict 1 of 2 ends"] b.title_range) ∧
    get_utf16_len (String.mk ['a']) = 1 ∧
    get_utf16_len (String.mk ['𝄞']) = 2 := by
  refine ⟨?_, ?_, ?_⟩
  · exact C6_title_ranges.1 ["<<<<<<< Conflict 1 of 2", "+++++++ Contents of side #1",
      "hello", ">>>>>>> Conflict 1 of 2 ends"]
      ⟨⟨⟨0, 0⟩, ⟨3, 28⟩⟩, rangeOfLine 0 "<<<<<<< Conflict 1 of 2",
        [⟨rangeOfLine 1 "+++++++ Contents of side #1", "hello"⟩]⟩ (by decide)
  · exact C6_title_ranges.2.1 'a' (by decide)
  · exact C6_title_ranges.2.2 '𝄞' (by decide)

/-- Claim C7: a ConflictStart line is not a known pattern, hence not a
block terminator: a block accumulating content runs straight past a
ConflictStart line, treating it as an ordinary content line of either
block kind, and terminates only at the following known-pattern
line. -/
theorem C7_start_not_terminator :
    (∀ l, DIFF_CONFLICT_START_REGEX l = true → is_known_pattern l = false) ∧
    (∀ (hdr : String) (conts a : List String) (s : String) (b : List String)
      (term : String) (r : List String) (n : Nat),
      (∀ l ∈ conts, DIFF_CONTINUATION_REGEX l = true) →
      (∀ l ∈ a, is_known_pattern l = false) →
      (∀ l ∈ b, is_known_pattern l = false) →
      DIFF_CONFLICT_START_REGEX s = true →
      is_known_pattern term = true →
      DIFF_CONTINUATION_REGEX term = false →
      parse_contents_block ⟨conts ++ (a ++ s :: b) ++ term :: r, some hdr, n⟩ =
        (some ⟨rangeOfLine n hdr, (a ++ s :: b).foldl step_contents ""⟩,
         ⟨r, some term, n + 1 + conts.length + (a ++ s :: b).length⟩) ∧
      parse_change_block ⟨conts ++ (a ++ s :: b) ++ term :: r, some hdr, n⟩ =
        (some ⟨rangeOfLine n hdr, (a ++ s :: b).foldl step_change ""⟩,
         ⟨r, some term, n + 1 + conts.length + (a ++ s :: b).length⟩)) := by
  constructor
  · exact fun l h => conflict_start_not_known l h
  · intro hdr conts a s b term r n hconts ha hb hs hterm htermc
    have hmids : ∀ l ∈ a ++ s :: b, is_known_pattern l = false := by
      intro l hl
      rcases List.mem_append.mp hl with hl | hl
      · exact ha l hl
      · rcases List.mem_cons.mp hl with rfl | hl
        · exact conflict_start_not_known l hs
        · exact hb l hl
    exact ⟨parse_contents_block_run hdr conts (a ++ s :: b) term r n hconts hmids
        hterm htermc,
      parse_change_block_run hdr conts (a ++ s :: b) term r n hconts hmids
        hterm htermc⟩

/-- Witness for claim C7: a contents block swallowing a ConflictStart
line between two plain lines. -/
theorem C7_witness :
    is_known_pattern "<<<<<<< Conflict 2 of 2" = false ∧
    parse_contents_block ⟨["before", "<<<<<<< Conflict 2 of 2", "after",
        ">>>>>>> Conflict 1 of 2 ends"], some "+++++++ Contents of side #1", 0⟩ =
      (some ⟨rangeOfLine 0 "+++++++ Contents of side #1",
        "before\n<<<<<<< Conflict 2 of 2\nafter"⟩,
       ⟨[], some ">>>>>>> Conflict 1 of 2 ends", 4⟩) := by
  refine ⟨C7_start_not_terminator.1 "<<<<<<< Conflict 2 of 2" (by decide), ?_⟩
  have h := (C7_start_not_terminator.2 "+++++++ Contents of side #1" [] ["before"]
    "<<<<<<< Conflict 2 of 2" ["after"] ">>>>>>> Conflict 1 of 2 ends" [] 0
    (by decide) (by decide) (by decide) (by decide) (by decide) (by decide)).1
  exact h.trans (by decide)

/-- Claim C8, counterexample: a contents block whose source lines are
an empty line then the line x produces content x, dropping the empty
line instead of keeping every source line joined verbatim. -/
theorem C8_counterexample :
    (parse_contents_block ⟨["", "x", ">>>>>>> Conflict 1 of 2 ends"],
        some "+++++++ Contents of side #1", 0⟩).1 =
      some ⟨rangeOfLine 0 "+++++++ Contents of side #1", "x"⟩ ∧
    joinNL ["", "x"] = "\nx" ∧ ("x" : String) ≠ "\nx" := by
  decide

/-- Claim C8 as amended: every source line of a contents block appears
verbatim in content in source order, joined by single newlines, except
that empty source lines at the start of the block are collapsed (no
separator is emitted while the accumulated content is still empty). -/
theorem C8_amended (hdr : String) (conts mids : List String) (term : String)
    (r : List String) (n : Nat)
    (hconts : ∀ l ∈ conts, DIFF_CONTINUATION_REGEX l = true)
    (hmids : ∀ l ∈ mids, is_known_pattern l = false)
    (hterm : is_known_pattern term = true)
    (htermc : DIFF_CONTINUATION_REGEX term = false) :
    parse_contents_block ⟨conts ++ mids ++ term :: r, some hdr, n⟩ =
      (some ⟨rangeOfLine n hdr, joinNL (mids.dropWhile (fun l => l == ""))⟩,
       ⟨r, some term, n + 1 + conts.length + mids.length⟩) := by
  rw [parse_contents_block_run hdr conts mids term r n hconts hmids hterm htermc,
    foldl_step_contents_empty]

/-- Witness for the amended claim C8 at a concrete block. -/
theorem C8_amended_witness :
    parse_contents_block ⟨["one", "", "two", ">>>>>>> Conflict 1 of 2 ends"],
        some "+++++++ Contents of side #1", 0⟩ =
      (some ⟨rangeOfLine 0 "+++++++ Contents of side #1", "one\n\ntwo"⟩,
       ⟨[], some ">>>>>>> Conflict 1 of 2 ends", 4⟩) := by
  have h := C8_amended "+++++++ Contents of side #1" [] ["one", "", "two"]
    ">>>>>>> Conflict 1 of 2 ends" [] 0 (by decide) (by decide) (by decide) (by decide)
  exact h.trans (by decide)

/-- Claim C9, counterexample: the conflict-start classifier is not
case-insensitive on the whole word: the all-caps variant does not
match, while the two first-letter capitalizations do. -/
theorem C9_counterexample :
    DIFF_CONFLICT_START_REGEX "<<<<<<< CONFLICT 1 of 2" = false ∧
    DIFF_CONFLICT_START_REGEX "<<<<<<< Conflict 1 of 2" = true ∧
    DIFF_CONFLICT_START_REGEX "<<<<<<< conflict 1 of 2" = true := by
  decide

/-- Claim C9 as amended: for every repeat count of at least 7, for the
word conflict capitalized only in its first letter or not at all, and
for all nonempty strings of decimal digits N and M, the line of that
many repeated less-than signs, a space, the word, a space, N, the word
of, and M is classified as ConflictStart. -/
theorem C9_amended (k : Nat) (c0 : Char) (N M : List Char)
    (hk : 7 ≤ k) (hc : c0 = 'C' ∨ c0 = 'c')
    (hN1 : N ≠ []) (hN2 : ∀ c ∈ N, c.isDigit = true)
    (hM1 : M ≠ []) (hM2 : ∀ c ∈ M, c.isDigit = true) :
    DIFF_CONFLICT_START_REGEX (String.mk (List.replicate k '<' ++
      (' ' :: c0 :: ("onflict ".toList ++ (N ++ (" of ".toList ++ M)))))) = true :=
  conflict_start_of_shape k c0 N M hk hc hN1 hN2 hM1 hM2

/-- Witness for the amended claim C9 with marker length 8 and
multi-digit ordinals. -/
theorem C9_amended_witness :
    DIFF_CONFLICT_START_REGEX (String.mk (List.replicate 8 '<' ++
      (' ' :: 'c' :: ("onflict ".toList ++
        (['1', '2'] ++ (" of ".toList ++ ['3', '4'])))))) = true :=
  C9_amended 8 'c' ['1', '2'] ['3', '4'] (by decide) (Or.inr rfl)
    (by decide) (by decide) (by decide) (by decide)

/-- Claim C10: every Conflict record appended to the output has its
range starting exactly at its title range start. -/
theorem C10_range_start_eq (doc : List String) :
    ∀ conf ∈ find_conflicts doc, conf.range.start = conf.title_range.start :=
  find_conflicts_pres _ doc (fun c conf c2 _ hp =>
    parse_diff_marker_range_start c conf c2 hp)

/-- Witness for claim C10 at a concrete document. -/
theorem C10_witness :
    (⟨⟨⟨0, 0⟩, ⟨3, 28⟩⟩, rangeOfLine 0 "<<<<<<< Conflict 1 of 2",
      [⟨rangeOfLine 1 "+++++++ Contents of side #1", "hello"⟩]⟩ : Conflict).range.start =
      (⟨⟨⟨0, 0⟩, ⟨3, 28⟩⟩, rangeOfLine 0 "<<<<<<< Conflict 1 of 2",
        [⟨rangeOfLine 1 "+++++++ Contents of side #1", "hello"⟩]⟩ : Conflict).title_range.start :=
  C10_range_start_eq ["<<<<<<< Conflict 1 of 2", "+++++++ Contents of side #1",
    "hello", ">>>>>>> Conflict 1 of 2 ends"]
    ⟨⟨⟨0, 0⟩, ⟨3, 28⟩⟩, rangeOfLine 0 "<<<<<<< Conflict 1 of 2",
      [⟨rangeOfLine 1 "+++++++ Contents of side #1", "hello"⟩]⟩ (by decide)

end JJLsp
